import Mathlib

/-!
Verification of the Information_Retrieval data-cleaning engine.

This file gives a shallow embedding, over `List Char`, of the text
normalizer, price parser, validity filter, deduplicator, non-food
classifier (`src/data_cleaner.py`) and of the named-entity sweep,
product-category classifier and encoding repair (`src/scraper.py`),
together with theorems settling the specification claims.

Strings are modelled as `List Char` (Python strings are sequences of
Unicode code points).  Python exceptions are modelled with `Except`.
-/

namespace IR

/-- Characters that Python `str.strip()` removes: the main Unicode
whitespace set recognised by `str.isspace`. -/
def pyIsSpace (c : Char) : Bool :=
  let n := c.toNat
  (9 ≤ n ∧ n ≤ 13) ∨ (28 ≤ n ∧ n ≤ 31) ∨ n = 32 ∨ n = 133 ∨ n = 160 ∨
  n = 0x1680 ∨ (0x2000 ≤ n ∧ n ≤ 0x200A) ∨ n = 0x2028 ∨ n = 0x2029 ∨
  n = 0x202F ∨ n = 0x205F ∨ n = 0x3000

/-- Substring test: Python's `sub in s` for strings. -/
def pyIn (sub : List Char) : List Char → Bool
  | [] => sub.isPrefixOf []
  | c :: r => sub.isPrefixOf (c :: r) || pyIn sub r

/-- Python `s.replace(old, new)` (left-to-right, non-overlapping); as in
Python, an empty `old` is never passed by this code base, and we return
the string unchanged in that case. -/
def pyReplace (old new : List Char) : List Char → List Char
  | [] => []
  | c :: r =>
    if h : old ≠ [] ∧ old.isPrefixOf (c :: r) then
      new ++ pyReplace old new ((c :: r).drop old.length)
    else
      c :: pyReplace old new r
termination_by l => l.length
decreasing_by
  · simp only [List.length_drop, List.length_cons]
    have hlen : 1 ≤ old.length := by
      cases old with
      | nil => exact absurd rfl h.1
      | cons x xs => simp
    omega
  · simp

/-- Python `str.lower()` restricted to ASCII letters; all keyword tables
in this code base that are compared case-insensitively are ASCII (the
few CJK keywords are unaffected by `lower()`). -/
def pyLower (c : Char) : Char :=
  if 'A' ≤ c ∧ c ≤ 'Z' then Char.ofNat (c.toNat + 32) else c

/-- Lower-case a whole string. -/
def strLower (l : List Char) : List Char := l.map pyLower

/-- Drop trailing characters satisfying `pyIsSpace` (right half of
Python `str.strip()`). -/
def rstripChars (l : List Char) : List Char :=
  (l.reverse.dropWhile pyIsSpace).reverse

/-- Python `str.strip()`: drop leading and trailing whitespace. -/
def pyStrip (l : List Char) : List Char :=
  rstripChars (l.dropWhile pyIsSpace)

/-! Text normalizer, `DataCleaner.clean_text` (src/data_cleaner.py lines
157-178).  The five steps are embedded one by one. -/

/-- Scan to the first `'>'`, returning the remainder after it
(helper for the HTML-tag regex `<[^>]+>`). -/
def scanToGt : List Char → Option (List Char)
  | [] => none
  | c :: t => if c = '>' then some t else scanToGt t

theorem scanToGt_length {l t : List Char} (h : scanToGt l = some t) :
    t.length < l.length := by
  induction l with
  | nil => simp [scanToGt] at h
  | cons c r ih =>
    simp only [scanToGt] at h
    by_cases hc : c = '>'
    · simp [hc] at h
      simp [← h]
    · simp [hc] at h
      have := ih h
      simp
      omega

/-- Step (a) of `clean_text`: `re.sub(r'<[^>]+>', '', text)`.  A `<` is
removed together with everything up to the first following `>` provided
at least one character lies between; a `<` with no such match is kept. -/
def stripTags : List Char → List Char
  | [] => []
  | c :: rest =>
    if c = '<' then
      match rest with
      | [] => ['<']
      | c2 :: tail =>
        if c2 = '>' then '<' :: stripTags (c2 :: tail)
        else
          match h : scanToGt tail with
          | some rest2 => stripTags rest2
          | none => '<' :: stripTags (c2 :: tail)
    else c :: stripTags rest
termination_by l => l.length
decreasing_by
  · simp
  · have := scanToGt_length h
    simp
    omega
  · simp
  · simp

/-- Entity table for the model of Python `html.unescape` (step (b) of
`clean_text`): the named entities that occur in this corpus.  The real
`html.unescape` knows the full HTML5 table; this embedding restricts it
to a finite representative set, which is what every theorem below uses. -/
def entityTable : List (List Char × Char) :=
  [("lt".data, '<'), ("gt".data, '>'), ("amp".data, '&'),
   ("quot".data, '"'), ("apos".data, '\''), ("nbsp".data, ' ')]

/-- Try to read one `&name;` entity at the head of `r` (the text right
after a `'&'`); returns the decoded character and the remaining text. -/
def findEntityIn : List (List Char × Char) → List Char → Option (Char × List Char)
  | [], _ => none
  | (name, c) :: t, r =>
    if (name ++ [';']).isPrefixOf r then some (c, r.drop (name.length + 1))
    else findEntityIn t r

theorem findEntityIn_length {tbl : List (List Char × Char)} {r : List Char}
    {c : Char} {rest : List Char} (h : findEntityIn tbl r = some (c, rest)) :
    rest.length < r.length := by
  induction tbl with
  | nil => simp [findEntityIn] at h
  | cons p t ih =>
    simp only [findEntityIn] at h
    by_cases hp : (p.1 ++ [';']).isPrefixOf r
    · simp [hp] at h
      obtain ⟨-, h2⟩ := h
      have hpre : (p.1 ++ [';']) <+: r := List.isPrefixOf_iff_prefix.mp hp
      have hlen : p.1.length + 1 ≤ r.length := by
        have := hpre.length_le
        simpa using this
      rw [← h2]
      simp
      omega
    · simp [hp] at h
      exact ih h

/-- Model of `html.unescape` (step (b) of `clean_text`) over
`entityTable`: each `&name;` is decoded; any other `&` is kept. -/
def unescape : List Char → List Char
  | [] => []
  | c :: r =>
    if c = '&' then
      match h : findEntityIn entityTable r with
      | some (d, rest) => d :: unescape rest
      | none => '&' :: unescape r
    else c :: unescape r
termination_by l => l.length
decreasing_by
  · have := findEntityIn_length h
    simp
    omega
  · simp
  · simp

/-- Characters removed by step (c) of `clean_text`:
`re.sub(r'[​-‍﻿]', '', text)`. -/
def isZW (c : Char) : Bool :=
  (0x200B ≤ c.toNat ∧ c.toNat ≤ 0x200D) ∨ c.toNat = 0xFEFF

/-- Step (c) of `clean_text`: remove zero-width and BOM characters. -/
def removeZW (l : List Char) : List Char := l.filter (fun c => ¬ isZW c)

/-- Model of `unicodedata.normalize('NFKC', ·)` at the character level
(step (d) of `clean_text`), restricted to a finite table of
compatibility characters occurring in this corpus; every other
character is NFKC-fixed and maps to itself. -/
def nfkcChar (c : Char) : List Char :=
  if c = '\u00A0' then [' ']
  else if c = '\u3000' then [' ']
  else if c = '\uFFE5' then ['\u00A5']
  else if c = '\uFF01' then ['!']
  else if c = '\u2460' then ['1']
  else [c]

/-- Apply `nfkcChar` across a string. -/
def nfkcMap : List Char → List Char
  | [] => []
  | c :: r => nfkcChar c ++ nfkcMap r

/-- First part of step (e): `re.sub(r' +', ' ', text)` — collapse runs
of space characters to a single space. -/
def collapseSpaces : List Char → List Char
  | [] => []
  | [c] => [c]
  | c1 :: c2 :: r =>
    if c1 = ' ' ∧ c2 = ' ' then collapseSpaces (c2 :: r)
    else c1 :: collapseSpaces (c2 :: r)

/-- Second part of step (e): `re.sub(r'\n{3,}', '\n\n', text)` — any
run of three or more newlines becomes exactly two. -/
def collapseNL : List Char → List Char
  | [] => []
  | [c] => [c]
  | [c1, c2] => [c1, c2]
  | c1 :: c2 :: c3 :: r =>
    if c1 = '\n' ∧ c2 = '\n' ∧ c3 = '\n' then collapseNL (c1 :: c2 :: r)
    else c1 :: collapseNL (c2 :: c3 :: r)
termination_by l => l.length
decreasing_by
  · simp
  · simp

/-- Python `text.split('\n')`. -/
def splitNl : List Char → List (List Char)
  | [] => [[]]
  | c :: r =>
    if c = '\n' then [] :: splitNl r
    else
      match splitNl r with
      | [] => [[c]]
      | l :: ls => (c :: l) :: ls

/-- Python `'\n'.join(lines)`. -/
def joinNl : List (List Char) → List Char
  | [] => []
  | [l] => l
  | l :: l2 :: ls => l ++ '\n' :: joinNl (l2 :: ls)

/-- Third part of step (e): strip every line, re-join. -/
def stripLines (l : List Char) : List Char :=
  joinNl ((splitNl l).map pyStrip)

/-- Whole whitespace-normalisation step (e) of `clean_text`. -/
def wsNorm (l : List Char) : List Char :=
  pyStrip (stripLines (collapseNL (collapseSpaces l)))

/-- `DataCleaner.clean_text` (src/data_cleaner.py lines 157-178): strip
HTML tags, decode entities, drop zero-width characters, NFKC-normalise,
normalise whitespace.  `None` input is modelled by the empty string
(both produce `''`). -/
def clean_text (l : List Char) : List Char :=
  wsNorm (nfkcMap (removeZW (unescape (stripTags l))))

/-! Lemmas towards the idempotence analysis of `clean_text` (claim C1). -/

/-- Adjacent-pair condition holding along a whole string. -/
def chainOk (R : Char → Char → Bool) : List Char → Bool
  | [] => true
  | [_] => true
  | a :: b :: r => R a b && chainOk R (b :: r)

/-- Pair condition satisfied by the output of `wsNorm`: no two adjacent
spaces, and no Python-whitespace character other than a newline directly
before or after a newline. -/
def okPair (a b : Char) : Bool :=
  ¬(a = ' ' ∧ b = ' ') ∧
  ¬(a = '\n' ∧ pyIsSpace b ∧ b ≠ '\n') ∧
  ¬(pyIsSpace a ∧ a ≠ '\n' ∧ b = '\n')

/-- No two adjacent space characters. -/
def noDblPair (a b : Char) : Bool := ¬(a = ' ' ∧ b = ' ')

/-- No three adjacent newlines (the fixed-point condition of the
newline-collapsing substitution in `clean_text`). -/
def noTripleNl : List Char → Bool
  | a :: b :: c :: r => ¬(a = '\n' ∧ b = '\n' ∧ c = '\n') && noTripleNl (b :: c :: r)
  | _ => true

theorem chainOk_tail {R : Char → Char → Bool} {a : Char} {l : List Char}
    (h : chainOk R (a :: l) = true) : chainOk R l = true := by
  cases l with
  | nil => rfl
  | cons b r => simp only [chainOk, Bool.and_eq_true] at h; exact h.2

theorem chainOk_head {R : Char → Char → Bool} {a b : Char} {l : List Char}
    (h : chainOk R (a :: b :: l) = true) : R a b = true := by
  simp only [chainOk, Bool.and_eq_true] at h; exact h.1

theorem chainOk_mono {R S : Char → Char → Bool} (hRS : ∀ a b, R a b = true → S a b = true) :
    ∀ {l : List Char}, chainOk R l = true → chainOk S l = true
  | [], _ => rfl
  | [_], _ => rfl
  | a :: b :: r, h => by
    simp only [chainOk, Bool.and_eq_true] at h ⊢
    exact ⟨hRS a b h.1, chainOk_mono hRS h.2⟩

theorem chainOk_append_right {R : Char → Char → Bool} :
    ∀ {xs ys : List Char}, chainOk R (xs ++ ys) = true → chainOk R ys = true
  | [], _, h => h
  | [a], ys, h => chainOk_tail (l := ys) (by simpa using h)
  | a :: b :: xs, ys, h => by
    have : chainOk R ((b :: xs) ++ ys) = true := chainOk_tail (by simpa using h)
    exact chainOk_append_right this

theorem chainOk_append_left {R : Char → Char → Bool} :
    ∀ {xs ys : List Char}, chainOk R (xs ++ ys) = true → chainOk R xs = true
  | [], _, _ => rfl
  | [_], _, _ => rfl
  | a :: b :: xs, ys, h => by
    simp only [List.cons_append, chainOk, Bool.and_eq_true] at h
    simp only [chainOk, Bool.and_eq_true]
    exact ⟨h.1, @chainOk_append_left R (b :: xs) ys h.2⟩

theorem chainOk_within {R : Char → Char → Bool} {l m : List Char}
    (hinf : l <:+: m) (h : chainOk R m = true) : chainOk R l = true := by
  obtain ⟨xs, ys, rfl⟩ := hinf
  exact chainOk_append_left (@chainOk_append_right R xs (l ++ ys) (by simpa using h))

theorem chainOk_append_pivot {R : Char → Char → Bool} {b : Char} :
    ∀ {xs ys : List Char} {a : Char}, chainOk R (xs ++ b :: ys) = true →
      xs.getLast? = some a → R a b = true
  | [], _, _, _, hl => by simp at hl
  | [x], ys, a, h, hl => by
    simp at hl
    subst hl
    exact chainOk_head (by simpa using h)
  | x1 :: x2 :: xs, ys, a, h, hl => by
    have h2 : chainOk R ((x2 :: xs) ++ b :: ys) = true := chainOk_tail (by simpa using h)
    have hl2 : (x2 :: xs).getLast? = some a := by
      simpa [List.getLast?_cons_cons] using hl
    exact chainOk_append_pivot h2 hl2

/-- If a string contains no `<`, the tag-stripping pass keeps it. -/
theorem stripTags_eq_self : ∀ {l : List Char}, '<' ∉ l → stripTags l = l
  | [], _ => by rw [stripTags.eq_def]
  | c :: r, h => by
    have hc : ¬ c = '<' := by
      intro hc; exact h (hc ▸ List.mem_cons_self c r)
    have hr : '<' ∉ r := fun hm => h (List.mem_cons_of_mem c hm)
    rw [stripTags.eq_def]
    simp [hc, stripTags_eq_self hr]

/-- If a string contains no `&`, the entity-decoding pass keeps it. -/
theorem unescape_eq_self : ∀ {l : List Char}, '&' ∉ l → unescape l = l
  | [], _ => by rw [unescape.eq_def]
  | c :: r, h => by
    have hc : ¬ c = '&' := by
      intro hc; exact h (hc ▸ List.mem_cons_self c r)
    have hr : '&' ∉ r := fun hm => h (List.mem_cons_of_mem c hm)
    rw [unescape.eq_def]
    simp [hc, unescape_eq_self hr]

/-- If no character of a string is zero-width, the zero-width filter
keeps it. -/
theorem removeZW_eq_self {l : List Char} (h : ∀ c ∈ l, isZW c = false) :
    removeZW l = l := by
  unfold removeZW
  exact List.filter_eq_self.mpr (by intro c hc; simp [h c hc])

/-- If every character of a string is NFKC-fixed, the NFKC pass keeps
it. -/
theorem nfkcMap_eq_self : ∀ {l : List Char}, (∀ c ∈ l, nfkcChar c = [c]) → nfkcMap l = l
  | [], _ => rfl
  | c :: r, h => by
    have hc := h c (List.mem_cons_self c r)
    have hr : ∀ d ∈ r, nfkcChar d = [d] := fun d hd => h d (List.mem_cons_of_mem c hd)
    simp [nfkcMap, hc, nfkcMap_eq_self hr]

theorem mem_nfkcMap : ∀ {l : List Char} {c : Char}, c ∈ nfkcMap l → ∃ d ∈ l, c ∈ nfkcChar d
  | [], c, h => by simp [nfkcMap] at h
  | d :: r, c, h => by
    simp only [nfkcMap, List.mem_append] at h
    rcases h with h | h
    · exact ⟨d, List.mem_cons_self d r, h⟩
    · obtain ⟨e, he, hc⟩ := mem_nfkcMap h
      exact ⟨e, List.mem_cons_of_mem d he, hc⟩

/-- Every character produced by `nfkcChar` is either itself NFKC-fixed
and not zero-width, or is the input character unchanged. -/
theorem nfkcChar_good (d : Char) :
    ∀ c ∈ nfkcChar d, (isZW c = false ∧ nfkcChar c = [c]) ∨ (c = d ∧ nfkcChar d = [d]) := by
  intro c hc
  rw [nfkcChar] at hc
  by_cases h1 : d = '\u00A0'
  · simp [h1] at hc; subst hc; left; exact ⟨by decide, by decide⟩
  by_cases h2 : d = '\u3000'
  · simp [h1, h2] at hc; subst hc; left; exact ⟨by decide, by decide⟩
  by_cases h3 : d = '\uFFE5'
  · simp [h1, h2, h3] at hc; subst hc; left; exact ⟨by decide, by decide⟩
  by_cases h4 : d = '\uFF01'
  · simp [h1, h2, h3, h4] at hc; subst hc; left; exact ⟨by decide, by decide⟩
  by_cases h5 : d = '\u2460'
  · simp [h1, h2, h3, h4, h5] at hc; subst hc; left; exact ⟨by decide, by decide⟩
  · simp [h1, h2, h3, h4, h5] at hc
    right
    exact ⟨hc, by rw [nfkcChar]; simp [h1, h2, h3, h4, h5]⟩

theorem splitNl_ne_nil : ∀ l : List Char, splitNl l ≠ []
  | [] => by simp [splitNl]
  | c :: r => by
    simp only [splitNl]
    by_cases hc : c = '\n'
    · simp [hc]
    · simp only [hc, if_false]
      cases h : splitNl r <;> simp

theorem splitNl_no_nl : ∀ (l : List Char), ∀ p ∈ splitNl l, '\n' ∉ p
  | [], p, hp => by
    simp [splitNl] at hp
    simp [hp]
  | c :: r, p, hp => by
    simp only [splitNl] at hp
    by_cases hc : c = '\n'
    · simp only [hc, if_true, List.mem_cons] at hp
      rcases hp with rfl | hp
      · simp
      · exact splitNl_no_nl r p hp
    · simp only [hc, if_false] at hp
      cases h : splitNl r with
      | nil => exact absurd h (splitNl_ne_nil r)
      | cons l ls =>
        rw [h] at hp
        rcases List.mem_cons.mp hp with rfl | hp
        · intro hmem
          rcases List.mem_cons.mp hmem with h1 | h1
          · exact hc h1.symm
          · exact splitNl_no_nl r l (h ▸ List.mem_cons_self l ls) h1
        · exact splitNl_no_nl r p (h ▸ List.mem_cons_of_mem l hp)

theorem splitNl_head_prefix : ∀ {l p : List Char} {ls : List (List Char)},
    splitNl l = p :: ls → p <+: l
  | [], p, ls, h => by
    simp [splitNl] at h
    simp [h.1]
  | c :: r, p, ls, h => by
    simp only [splitNl] at h
    by_cases hc : c = '\n'
    · simp only [hc, if_true] at h
      rw [List.cons.injEq] at h
      simp [← h.1]
    · simp only [hc, if_false] at h
      cases h2 : splitNl r with
      | nil => exact absurd h2 (splitNl_ne_nil r)
      | cons l2 ls2 =>
        rw [h2] at h
        rw [List.cons.injEq] at h
        obtain ⟨rfl, -⟩ := h
        obtain ⟨ts, rfl⟩ := splitNl_head_prefix h2
        exact ⟨ts, by simp⟩

theorem mem_splitNl_tail {l : List Char} {p l2 : List Char} {ls2 : List (List Char)}
    (h : splitNl l = l2 :: ls2) (hp : p ∈ ls2) : p ∈ splitNl l := by
  rw [h]; exact List.mem_cons_of_mem l2 hp

theorem within_cons_extend {c : Char} {p r : List Char} (h : p <:+: r) :
    p <:+: c :: r := by
  obtain ⟨xs, ys, rfl⟩ := h
  exact ⟨c :: xs, ys, by simp⟩

theorem mem_splitNl_within : ∀ (l : List Char), ∀ p ∈ splitNl l, p <:+: l
  | [], p, hp => by
    simp [splitNl] at hp
    simp [hp]
  | c :: r, p, hp => by
    simp only [splitNl] at hp
    by_cases hc : c = '\n'
    · simp only [hc, if_true, List.mem_cons] at hp
      rcases hp with rfl | hp
      · exact ⟨[], '\n' :: r, by simp [hc]⟩
      · exact within_cons_extend (mem_splitNl_within r p hp)
    · simp only [hc, if_false] at hp
      cases h : splitNl r with
      | nil => exact absurd h (splitNl_ne_nil r)
      | cons l2 ls2 =>
        rw [h] at hp
        rcases List.mem_cons.mp hp with rfl | hp
        · obtain ⟨ts, rfl⟩ := splitNl_head_prefix h
          exact ⟨[], ts, by simp⟩
        · exact within_cons_extend
            (mem_splitNl_within r p (h ▸ List.mem_cons_of_mem l2 hp))

theorem splitNl_eq_single : ∀ {l : List Char}, '\n' ∉ l → splitNl l = [l]
  | [], _ => rfl
  | c :: r, h => by
    have hc : ¬ c = '\n' := fun hc => h (hc ▸ List.mem_cons_self c r)
    have hr : '\n' ∉ r := fun hm => h (List.mem_cons_of_mem c hm)
    simp only [splitNl, hc, if_false, splitNl_eq_single hr]

theorem splitNl_append : ∀ {l₀ : List Char} (r : List Char), '\n' ∉ l₀ →
    splitNl (l₀ ++ '\n' :: r) = l₀ :: splitNl r
  | [], r, _ => by simp [splitNl]
  | c :: t, r, h => by
    have hc : ¬ c = '\n' := fun hc => h (hc ▸ List.mem_cons_self c t)
    have ht : '\n' ∉ t := fun hm => h (List.mem_cons_of_mem c hm)
    simp only [List.cons_append, splitNl, hc, if_false, List.append_eq]
    rw [splitNl_append r ht]

theorem joinNl_cons {l : List Char} {ls : List (List Char)} (h : ls ≠ []) :
    joinNl (l :: ls) = l ++ '\n' :: joinNl ls := by
  cases ls with
  | nil => exact absurd rfl h
  | cons l2 ls2 => rfl

theorem joinNl_splitNl_id : ∀ l : List Char, joinNl (splitNl l) = l
  | [] => rfl
  | c :: r => by
    simp only [splitNl]
    by_cases hc : c = '\n'
    · subst hc
      rw [if_pos rfl, joinNl_cons (splitNl_ne_nil r)]
      simp [joinNl_splitNl_id r]
    · rw [if_neg hc]
      cases h : splitNl r with
      | nil => exact absurd h (splitNl_ne_nil r)
      | cons l2 ls2 =>
        have hjoin := joinNl_splitNl_id r
        rw [h] at hjoin
        cases ls2 with
        | nil => simp only [joinNl] at hjoin ⊢; simp [hjoin]
        | cons l3 ls3 =>
          rw [joinNl_cons (by simp)] at hjoin ⊢
          simp [hjoin]

theorem splitNl_joinNl : ∀ {ls : List (List Char)}, ls ≠ [] →
    (∀ p ∈ ls, '\n' ∉ p) → splitNl (joinNl ls) = ls
  | [], h, _ => absurd rfl h
  | [l], _, hn => by
    simp only [joinNl]
    exact splitNl_eq_single (hn l (by simp))
  | l :: l2 :: ls, _, hn => by
    rw [joinNl_cons (by simp)]
    rw [splitNl_append _ (hn l (by simp))]
    rw [splitNl_joinNl (by simp) (fun p hp => hn p (List.mem_cons_of_mem l hp))]

theorem mem_joinNl : ∀ {ls : List (List Char)} {c : Char}, c ∈ joinNl ls →
    (∃ p ∈ ls, c ∈ p) ∨ c = '\n'
  | [], c, h => by simp [joinNl] at h
  | [l], c, h => by
    simp only [joinNl] at h
    exact Or.inl ⟨l, by simp, h⟩
  | l :: l2 :: ls, c, h => by
    rw [joinNl_cons (by simp)] at h
    rcases List.mem_append.mp h with h | h
    · exact Or.inl ⟨l, by simp, h⟩
    · rcases List.mem_cons.mp h with rfl | h
      · exact Or.inr rfl
      · rcases mem_joinNl h with ⟨p, hp, hc⟩ | h
        · exact Or.inl ⟨p, List.mem_cons_of_mem l hp, hc⟩
        · exact Or.inr h

theorem joinNl_head? : ∀ {ls : List (List Char)} {c : Char},
    (joinNl ls).head? = some c → (∃ p ∈ ls, p.head? = some c) ∨ c = '\n'
  | [], c, h => by simp [joinNl] at h
  | [l], c, h => by
    simp only [joinNl] at h
    exact Or.inl ⟨l, by simp, h⟩
  | l :: l2 :: ls, c, h => by
    rw [joinNl_cons (by simp)] at h
    cases hl : l with
    | nil =>
      subst hl
      simp at h
      exact Or.inr h.symm
    | cons d t =>
      subst hl
      simp at h
      exact Or.inl ⟨d :: t, by simp, by simp [h]⟩

theorem rstripChars_leading (l : List Char) : rstripChars l <+: l := by
  unfold rstripChars
  have h := List.dropWhile_suffix (l := l.reverse) pyIsSpace
  rw [← List.reverse_prefix] at h
  simpa using h

theorem pyStrip_within (l : List Char) : pyStrip l <:+: l := by
  unfold pyStrip
  exact (rstripChars_leading _).isInfix.trans (List.dropWhile_suffix pyIsSpace).isInfix

theorem mem_pyStrip {c : Char} {l : List Char} (h : c ∈ pyStrip l) : c ∈ l :=
  (pyStrip_within l).subset h

theorem dropWhile_head_false {p : Char → Bool} {l r : List Char} {c : Char}
    (h : l.dropWhile p = c :: r) : p c = false := by
  have := List.head?_dropWhile_not p l
  rw [h] at this
  simpa using this

theorem dropWhile_eq_self {p : Char → Bool} : ∀ {l : List Char},
    (∀ c, l.head? = some c → p c = false) → l.dropWhile p = l
  | [], _ => rfl
  | c :: r, h => by
    have := h c (by simp)
    simp [List.dropWhile_cons, this]

theorem rstripChars_eq_self {l : List Char}
    (h : ∀ c, l.getLast? = some c → pyIsSpace c = false) : rstripChars l = l := by
  unfold rstripChars
  rw [dropWhile_eq_self (p := pyIsSpace), List.reverse_reverse]
  intro c hc
  exact h c (by rwa [List.head?_reverse] at hc)

theorem pyStrip_eq_self {l : List Char}
    (h1 : ∀ c, l.head? = some c → pyIsSpace c = false)
    (h2 : ∀ c, l.getLast? = some c → pyIsSpace c = false) : pyStrip l = l := by
  unfold pyStrip
  rw [dropWhile_eq_self h1, rstripChars_eq_self h2]

theorem pyStrip_head_false {l : List Char} {c : Char}
    (h : (pyStrip l).head? = some c) : pyIsSpace c = false := by
  obtain ⟨ts, hts⟩ := rstripChars_leading (l.dropWhile pyIsSpace)
  unfold pyStrip at h
  cases hr : rstripChars (l.dropWhile pyIsSpace) with
  | nil => rw [hr] at h; simp at h
  | cons d t =>
    rw [hr] at h
    simp at h
    subst h
    rw [hr] at hts
    exact dropWhile_head_false hts.symm

theorem pyStrip_getLast_false {l : List Char} {c : Char}
    (h : (pyStrip l).getLast? = some c) : pyIsSpace c = false := by
  unfold pyStrip rstripChars at h
  rw [List.getLast?_reverse] at h
  cases hd : (l.dropWhile pyIsSpace).reverse.dropWhile pyIsSpace with
  | nil => rw [hd] at h; simp at h
  | cons d t =>
    rw [hd] at h
    simp at h
    subst h
    exact dropWhile_head_false hd

theorem pyStrip_idem (l : List Char) : pyStrip (pyStrip l) = pyStrip l := by
  refine pyStrip_eq_self ?_ ?_
  · intro c hc; exact pyStrip_head_false hc
  · intro c hc; exact pyStrip_getLast_false hc

theorem mem_collapseSpaces : ∀ {l : List Char} {c : Char}, c ∈ collapseSpaces l → c ∈ l
  | [], c, h => by simp [collapseSpaces] at h
  | [d], c, h => by simpa [collapseSpaces] using h
  | c1 :: c2 :: r, c, h => by
    simp only [collapseSpaces] at h
    by_cases h12 : c1 = ' ' ∧ c2 = ' '
    · rw [if_pos h12] at h
      exact List.mem_cons_of_mem c1 (mem_collapseSpaces h)
    · rw [if_neg h12] at h
      rcases List.mem_cons.mp h with rfl | hmem
      · exact List.mem_cons_self c (c2 :: r)
      · exact List.mem_cons_of_mem c1 (mem_collapseSpaces hmem)

theorem mem_collapseNL : ∀ {l : List Char} {c : Char}, c ∈ collapseNL l → c ∈ l
  | [], c, h => by simp [collapseNL] at h
  | [d], c, h => by simpa [collapseNL] using h
  | [d, e], c, h => by simpa [collapseNL] using h
  | c1 :: c2 :: c3 :: r, c, h => by
    rw [collapseNL] at h
    by_cases h123 : c1 = '\n' ∧ c2 = '\n' ∧ c3 = '\n'
    · rw [if_pos h123] at h
      have := mem_collapseNL h
      rcases List.mem_cons.mp this with rfl | hm
      · exact List.mem_cons_self c _
      · rcases List.mem_cons.mp hm with rfl | hm2
        · exact List.mem_cons_of_mem c1 (List.mem_cons_self c _)
        · exact List.mem_cons_of_mem c1 (List.mem_cons_of_mem c2
            (List.mem_cons_of_mem c3 hm2))
    · rw [if_neg h123] at h
      rcases List.mem_cons.mp h with rfl | hmem
      · exact List.mem_cons_self c _
      · exact List.mem_cons_of_mem c1 (mem_collapseNL hmem)
termination_by l => l.length
decreasing_by
  · simp
  · simp

theorem collapseSpaces_head? : ∀ l : List Char, (collapseSpaces l).head? = l.head?
  | [] => rfl
  | [d] => rfl
  | c1 :: c2 :: r => by
    simp only [collapseSpaces]
    by_cases h12 : c1 = ' ' ∧ c2 = ' '
    · rw [if_pos h12, collapseSpaces_head? (c2 :: r)]
      simp [h12.1, h12.2]
    · rw [if_neg h12]
      simp

theorem collapseNL_head? : ∀ l : List Char, (collapseNL l).head? = l.head?
  | [] => by rw [collapseNL]
  | [d] => by rw [collapseNL]
  | [d, e] => by rw [collapseNL]
  | c1 :: c2 :: c3 :: r => by
    rw [collapseNL]
    by_cases h123 : c1 = '\n' ∧ c2 = '\n' ∧ c3 = '\n'
    · rw [if_pos h123, collapseNL_head? (c1 :: c2 :: r)]
      simp
    · rw [if_neg h123]
      simp
termination_by l => l.length
decreasing_by
  · simp

theorem noDbl_collapseSpaces : ∀ l : List Char, chainOk noDblPair (collapseSpaces l) = true
  | [] => rfl
  | [d] => rfl
  | c1 :: c2 :: r => by
    simp only [collapseSpaces]
    by_cases h12 : c1 = ' ' ∧ c2 = ' '
    · rw [if_pos h12]
      exact noDbl_collapseSpaces (c2 :: r)
    · rw [if_neg h12]
      have hh := collapseSpaces_head? (c2 :: r)
      cases hcs : collapseSpaces (c2 :: r) with
      | nil => rfl
      | cons d t =>
        rw [hcs] at hh
        simp only [List.head?_cons] at hh
        have hd : d = c2 := by injection hh
        have hchain := noDbl_collapseSpaces (c2 :: r)
        rw [hcs] at hchain
        simp only [chainOk, Bool.and_eq_true]
        refine ⟨?_, hchain⟩
        rw [hd]
        simp only [noDblPair, decide_eq_true_eq]
        exact h12

theorem noDblPair_of_ne_space {a b : Char} (ha : ¬ a = ' ') : noDblPair a b = true := by
  simp only [noDblPair, decide_eq_true_eq]
  exact fun hab => ha hab.1

theorem chainOk_cons_build {R : Char → Char → Bool} {a : Char} {l : List Char}
    (hpair : ∀ b r, l = b :: r → R a b = true) (hl : chainOk R l = true) :
    chainOk R (a :: l) = true := by
  cases l with
  | nil => rfl
  | cons b r =>
    simp only [chainOk, Bool.and_eq_true]
    exact ⟨hpair b r rfl, hl⟩

theorem noDbl_collapseNL : ∀ {l : List Char}, chainOk noDblPair l = true →
    chainOk noDblPair (collapseNL l) = true
  | [], _ => by rw [collapseNL]; rfl
  | [d], _ => by rw [collapseNL]; rfl
  | [d, e], h => by rw [collapseNL]; exact h
  | c1 :: c2 :: c3 :: r, h => by
    rw [collapseNL]
    by_cases h123 : c1 = '\n' ∧ c2 = '\n' ∧ c3 = '\n'
    · rw [if_pos h123]
      refine noDbl_collapseNL ?_
      have hc2r : chainOk noDblPair (c2 :: r) = true := by
        refine chainOk_cons_build (fun b rr hbr => ?_) ?_
        · exact noDblPair_of_ne_space (by rw [h123.2.1]; decide)
        · exact chainOk_tail (chainOk_tail (chainOk_tail h))
      refine chainOk_cons_build (fun b rr hbr => ?_) hc2r
      rw [List.cons.injEq] at hbr
      rw [← hbr.1]
      exact chainOk_head h
    · rw [if_neg h123]
      have hh := collapseNL_head? (c2 :: c3 :: r)
      cases hcs : collapseNL (c2 :: c3 :: r) with
      | nil => rfl
      | cons d t =>
        rw [hcs] at hh
        simp only [List.head?_cons] at hh
        have hd : d = c2 := by injection hh
        have hchain := noDbl_collapseNL (chainOk_tail h)
        rw [hcs] at hchain
        simp only [chainOk, Bool.and_eq_true]
        refine ⟨?_, hchain⟩
        rw [hd]
        exact chainOk_head h
termination_by l => l.length
decreasing_by
  · simp
  · simp

theorem collapseSpaces_eq_self : ∀ {l : List Char}, chainOk noDblPair l = true →
    collapseSpaces l = l
  | [], _ => rfl
  | [d], _ => rfl
  | c1 :: c2 :: r, h => by
    simp only [collapseSpaces]
    have hpair := chainOk_head h
    simp only [noDblPair, decide_eq_true_eq] at hpair
    rw [if_neg hpair, collapseSpaces_eq_self (chainOk_tail h)]

theorem noTripleNl_tail : ∀ {a : Char} {l : List Char},
    noTripleNl (a :: l) = true → noTripleNl l = true
  | _, [], _ => rfl
  | _, [_], _ => rfl
  | a, b :: c :: r, h => by
    simp only [noTripleNl, Bool.and_eq_true] at h
    exact h.2

theorem collapseNL_eq_self : ∀ {l : List Char}, noTripleNl l = true → collapseNL l = l
  | [], _ => by rw [collapseNL]
  | [d], _ => by rw [collapseNL]
  | [d, e], _ => by rw [collapseNL]
  | c1 :: c2 :: c3 :: r, h => by
    rw [collapseNL]
    have h123 : ¬ (c1 = '\n' ∧ c2 = '\n' ∧ c3 = '\n') := by
      simp only [noTripleNl, Bool.and_eq_true, decide_eq_true_eq] at h
      exact h.1
    rw [if_neg h123, collapseNL_eq_self (noTripleNl_tail h)]
termination_by l => l.length
decreasing_by
  · simp

/-- Edge condition for the line-structure analysis: the character at a
string edge, if any, is either not Python whitespace or is a newline. -/
def edgeOk (o : Option Char) : Prop :=
  ∀ c, o = some c → pyIsSpace c = false ∨ c = '\n'

theorem exists_nl_split : ∀ {t : List Char}, '\n' ∈ t →
    ∃ l₀ r, t = l₀ ++ '\n' :: r ∧ '\n' ∉ l₀
  | [], h => by simp at h
  | c :: ts, h => by
    by_cases hc : c = '\n'
    · exact ⟨[], ts, by simp [hc], by simp⟩
    · have hmem : '\n' ∈ ts := by
        rcases List.mem_cons.mp h with h1 | h1
        · exact absurd h1.symm hc
        · exact h1
      obtain ⟨l₀, r, rfl, hnl⟩ := exists_nl_split hmem
      refine ⟨c :: l₀, r, by simp, ?_⟩
      intro hm
      rcases List.mem_cons.mp hm with h1 | h1
      · exact hc h1.symm
      · exact hnl h1

theorem okPair_comp3 {a : Char} (h : okPair a '\n' = true) (ha : a ≠ '\n') :
    pyIsSpace a = false := by
  simp only [okPair, decide_eq_true_eq] at h
  by_contra hsp
  simp only [Bool.not_eq_false] at hsp
  tauto

theorem okPair_comp2 {b : Char} (h : okPair '\n' b = true) :
    pyIsSpace b = false ∨ b = '\n' := by
  simp only [okPair, decide_eq_true_eq] at h
  by_cases hb : b = '\n'
  · exact Or.inr hb
  · left
    by_contra hsp
    simp only [Bool.not_eq_false] at hsp
    tauto

theorem head?_mem : ∀ {l : List Char} {c : Char}, l.head? = some c → c ∈ l
  | [], c, h => by simp at h
  | d :: r, c, h => by
    simp at h
    simp [h]

theorem getLast?_mem : ∀ {l : List Char} {c : Char}, l.getLast? = some c → c ∈ l
  | [], c, h => by simp at h
  | [d], c, h => by
    simp at h
    simp [h]
  | d :: e :: r, c, h => by
    rw [List.getLast?_cons_cons] at h
    exact List.mem_cons_of_mem d (getLast?_mem h)

/-- A string satisfying the pair and edge conditions has every line
already stripped, so the strip-lines pass keeps it unchanged. -/
theorem stripLines_fixed (t : List Char) (hch : chainOk okPair t = true)
    (hhd : edgeOk t.head?) (hlast : edgeOk t.getLast?) : stripLines t = t := by
  by_cases hnl : '\n' ∈ t
  · obtain ⟨l₀, r, ht, hl₀⟩ := exists_nl_split hnl
    rw [ht] at hch hhd hlast ⊢
    unfold stripLines
    rw [splitNl_append r hl₀]
    simp only [List.map_cons]
    rw [joinNl_cons (by simp [splitNl_ne_nil r])]
    have hstrip0 : pyStrip l₀ = l₀ := by
      refine pyStrip_eq_self ?_ ?_
      · intro c hc
        have hcl : c ∈ l₀ := head?_mem hc
        have hne : c ≠ '\n' := fun hcn => hl₀ (hcn ▸ hcl)
        have hh : (l₀ ++ '\n' :: r).head? = some c := by
          cases l₀ with
          | nil => simp at hc
          | cons d t0 => simp at hc ⊢; exact hc
        rcases hhd c hh with h | h
        · exact h
        · exact absurd h hne
      · intro c hc
        have hcl : c ∈ l₀ := getLast?_mem hc
        have hne : c ≠ '\n' := fun hcn => hl₀ (hcn ▸ hcl)
        exact okPair_comp3 (chainOk_append_pivot hch hc) hne
    have hchr : chainOk okPair r = true :=
      chainOk_tail (@chainOk_append_right okPair l₀ ('\n' :: r) hch)
    have hhdr : edgeOk r.head? := by
      intro c hc
      have hpair : okPair '\n' c = true := by
        have := @chainOk_append_right okPair l₀ ('\n' :: r) hch
        cases r with
        | nil => simp at hc
        | cons d rr =>
          simp at hc
          exact hc ▸ chainOk_head this
      exact okPair_comp2 hpair
    have hlr : edgeOk r.getLast? := by
      intro c hc
      refine hlast c ?_
      cases r with
      | nil => simp at hc
      | cons d rr =>
        rw [List.getLast?_append_of_ne_nil l₀ (by simp)]
        rw [show ('\n' :: d :: rr).getLast? = (d :: rr).getLast? from rfl]
        exact hc
    have hrec : stripLines r = r := stripLines_fixed r hchr hhdr hlr
    unfold stripLines at hrec
    rw [hrec, hstrip0]
  · unfold stripLines
    rw [splitNl_eq_single hnl]
    simp only [List.map_cons, List.map_nil, joinNl]
    refine pyStrip_eq_self ?_ ?_
    · intro c hc
      have hcl : c ∈ t := head?_mem hc
      rcases hhd c hc with h | h
      · exact h
      · exact absurd (h ▸ hcl) hnl
    · intro c hc
      have hcl : c ∈ t := getLast?_mem hc
      rcases hlast c hc with h | h
      · exact h
      · exact absurd (h ▸ hcl) hnl
termination_by t.length
decreasing_by
  rw [ht]
  simp
  omega

theorem okPair_nl_left {b : Char} (h : pyIsSpace b = false ∨ b = '\n') :
    okPair '\n' b = true := by
  simp only [okPair, decide_eq_true_eq]
  refine ⟨by simp, ?_, by simp⟩
  rcases h with h | h
  · exact fun hx => by simp [h] at hx
  · exact fun hx => hx.2.2 h

theorem okPair_nl_right {a : Char} (h : pyIsSpace a = false) :
    okPair a '\n' = true := by
  simp only [okPair, decide_eq_true_eq]
  refine ⟨by simp, by simp, ?_⟩
  exact fun hx => by simp [h] at hx

theorem chainOk_append_build {R : Char → Char → Bool} :
    ∀ {xs ys : List Char}, chainOk R xs = true → chainOk R ys = true →
      (∀ a b, xs.getLast? = some a → ys.head? = some b → R a b = true) →
      chainOk R (xs ++ ys) = true
  | [], ys, _, hy, _ => hy
  | [x], ys, _, hy, hb => by
    refine chainOk_cons_build (fun b r hbr => ?_) hy
    refine hb x b (by simp) ?_
    have hys : ys = b :: r := by simpa using hbr
    rw [hys]
    rfl
  | x1 :: x2 :: xs, ys, hx, hy, hb => by
    simp only [List.cons_append]
    refine chainOk_cons_build (fun b r hbr => ?_) ?_
    · rw [List.cons.injEq] at hbr
      rw [← hbr.1]
      exact chainOk_head hx
    · exact chainOk_append_build (chainOk_tail hx) hy
        (fun a b ha hbh => hb a b (by rw [List.getLast?_cons_cons]; exact ha) hbh)

theorem line_pairsOk : ∀ {p : List Char}, '\n' ∉ p → chainOk noDblPair p = true →
    chainOk okPair p = true
  | [], _, _ => rfl
  | [_], _, _ => rfl
  | a :: b :: r, hnl, h => by
    have ha : a ≠ '\n' := fun hx => hnl (hx ▸ List.mem_cons_self a _)
    have hb : b ≠ '\n' := fun hx =>
      hnl (List.mem_cons_of_mem a (hx ▸ List.mem_cons_self b r))
    have hnd := chainOk_head h
    simp only [noDblPair, decide_eq_true_eq] at hnd
    simp only [chainOk, Bool.and_eq_true]
    refine ⟨?_, line_pairsOk (fun hx => hnl (List.mem_cons_of_mem a hx)) (chainOk_tail h)⟩
    simp only [okPair, decide_eq_true_eq]
    exact ⟨hnd, fun hx => ha hx.1, fun hx => hb hx.2.2⟩

/-- A line of `stripLines` output: newline-free, no double spaces, and
stripped at both ends. -/
def LineGood (p : List Char) : Prop :=
  '\n' ∉ p ∧ chainOk okPair p = true ∧
  (∀ c, p.head? = some c → pyIsSpace c = false) ∧
  (∀ c, p.getLast? = some c → pyIsSpace c = false)

theorem joinNl_pairsOk : ∀ {ls : List (List Char)}, (∀ p ∈ ls, LineGood p) →
    chainOk okPair (joinNl ls) = true
  | [], _ => rfl
  | [l], h => (h l (by simp)).2.1
  | l :: l2 :: ls, h => by
    rw [joinNl_cons (by simp)]
    have hl := h l (by simp)
    have hrest : chainOk okPair (joinNl (l2 :: ls)) = true :=
      joinNl_pairsOk (fun p hp => h p (List.mem_cons_of_mem l hp))
    refine chainOk_append_build hl.2.1 ?_ ?_
    · refine chainOk_cons_build (fun b r hbr => ?_) hrest
      have hh : (joinNl (l2 :: ls)).head? = some b := by rw [hbr]; simp
      rcases joinNl_head? hh with ⟨p, hp, hph⟩ | rfl
      · exact okPair_nl_left (Or.inl ((h p (List.mem_cons_of_mem l hp)).2.2.1 b hph))
      · exact okPair_nl_left (Or.inr rfl)
    · intro a b ha hbh
      simp only [List.head?_cons] at hbh
      have hb : b = '\n' := by
        injection hbh with hh
        exact hh.symm
      rw [hb]
      exact okPair_nl_right (hl.2.2.2 a ha)

theorem okPair_to_noDbl (a b : Char) (h : okPair a b = true) : noDblPair a b = true := by
  simp only [okPair, decide_eq_true_eq] at h
  simp only [noDblPair, decide_eq_true_eq]
  exact h.1

theorem pairsOk_wsNorm (u : List Char) : chainOk okPair (wsNorm u) = true := by
  have hnd : chainOk noDblPair (collapseNL (collapseSpaces u)) = true :=
    noDbl_collapseNL (noDbl_collapseSpaces u)
  have hlines : ∀ p ∈ (splitNl (collapseNL (collapseSpaces u))).map pyStrip, LineGood p := by
    intro p hp
    obtain ⟨q, hq, rfl⟩ := List.mem_map.mp hp
    refine ⟨?_, ?_, ?_, ?_⟩
    · intro hm
      exact splitNl_no_nl _ q hq (mem_pyStrip hm)
    · refine line_pairsOk ?_ (chainOk_within (pyStrip_within q)
        (chainOk_within (mem_splitNl_within _ q hq) hnd))
      intro hm
      exact splitNl_no_nl _ q hq (mem_pyStrip hm)
    · exact fun c hc => pyStrip_head_false hc
    · exact fun c hc => pyStrip_getLast_false hc
  have hjoin := joinNl_pairsOk hlines
  exact chainOk_within (pyStrip_within _) hjoin

theorem wsNorm_head_false {u : List Char} {c : Char}
    (h : (wsNorm u).head? = some c) : pyIsSpace c = false :=
  pyStrip_head_false h

theorem wsNorm_getLast_false {u : List Char} {c : Char}
    (h : (wsNorm u).getLast? = some c) : pyIsSpace c = false :=
  pyStrip_getLast_false h

/-- On its own image, provided no triple newline is present, the
whitespace-normalisation step is a fixed point. -/
theorem wsNorm_fixed (u : List Char) (h3 : noTripleNl (wsNorm u) = true) :
    wsNorm (wsNorm u) = wsNorm u := by
  have hch := pairsOk_wsNorm u
  have hhd : ∀ c, (wsNorm u).head? = some c → pyIsSpace c = false :=
    fun c hc => wsNorm_head_false hc
  have hlast : ∀ c, (wsNorm u).getLast? = some c → pyIsSpace c = false :=
    fun c hc => wsNorm_getLast_false hc
  have e1 : collapseSpaces (wsNorm u) = wsNorm u :=
    collapseSpaces_eq_self (chainOk_mono okPair_to_noDbl hch)
  have e2 : collapseNL (wsNorm u) = wsNorm u := collapseNL_eq_self h3
  have e3 : stripLines (wsNorm u) = wsNorm u :=
    stripLines_fixed _ hch (fun c hc => Or.inl (hhd c hc))
      (fun c hc => Or.inl (hlast c hc))
  have e4 : pyStrip (wsNorm u) = wsNorm u := pyStrip_eq_self hhd hlast
  show pyStrip (stripLines (collapseNL (collapseSpaces (wsNorm u)))) = wsNorm u
  rw [e1, e2, e3, e4]

theorem mem_removeZW {c : Char} {l : List Char} (h : c ∈ removeZW l) :
    c ∈ l ∧ isZW c = false := by
  unfold removeZW at h
  have := List.mem_filter.mp h
  refine ⟨this.1, ?_⟩
  have := this.2
  simpa using this

theorem mem_wsNorm {c : Char} {l : List Char} (h : c ∈ wsNorm l) :
    c ∈ l ∨ c = '\n' := by
  have h1 : c ∈ stripLines (collapseNL (collapseSpaces l)) := mem_pyStrip h
  unfold stripLines at h1
  rcases mem_joinNl h1 with ⟨p, hp, hc⟩ | h2
  · obtain ⟨q, hq, rfl⟩ := List.mem_map.mp hp
    have h3 : c ∈ q := mem_pyStrip hc
    have h4 : c ∈ collapseNL (collapseSpaces l) :=
      (mem_splitNl_within _ q hq).subset h3
    exact Or.inl (mem_collapseSpaces (mem_collapseNL h4))
  · exact Or.inr h2

/-- Every character of a `clean_text` output is neither zero-width nor an
unnormalised compatibility character. -/
theorem goodChar_clean_text (s : List Char) :
    ∀ c ∈ clean_text s, isZW c = false ∧ nfkcChar c = [c] := by
  intro c hc
  rcases mem_wsNorm hc with hm | rfl
  · obtain ⟨d, hd, hcd⟩ := mem_nfkcMap hm
    have hdz := (mem_removeZW hd).2
    rcases nfkcChar_good d c hcd with h | ⟨rfl, hfix⟩
    · exact h
    · exact ⟨hdz, hfix⟩
  · exact ⟨by decide, by decide⟩

unseal stripTags unescape collapseNL in
/-- Claim C1, counterexample: `clean_text` is not idempotent.  On the
input `"&lt;b&gt;\n \n \n \nx"` the first pass decodes the entities to
`<b>` and strips each space-only line, leaving `"<b>\n\n\n\nx"`; the
second pass then strips `<b>` as an HTML tag and collapses the newly
adjacent newlines, leaving `"x"`. -/
theorem c1_counterexample :
    clean_text (clean_text "&lt;b&gt;\n \n \n \nx".data) ≠
      clean_text "&lt;b&gt;\n \n \n \nx".data := by
  decide

/-- Claim C1 (amended): `clean_text` is idempotent on every string `s`
such that `clean_text s` contains no `<`, no `&`, and no run of three or
more newlines; on other strings a second application can differ, because
entities decoded to markup are stripped on the second pass and blank
lines that contained spaces collapse only on the second pass. -/
theorem c1_clean_text_idempotent_amended (s : List Char)
    (h1 : '<' ∉ clean_text s) (h2 : '&' ∉ clean_text s)
    (h3 : noTripleNl (clean_text s) = true) :
    clean_text (clean_text s) = clean_text s := by
  have hgood := goodChar_clean_text s
  have e1 : stripTags (clean_text s) = clean_text s := stripTags_eq_self h1
  have e2 : unescape (clean_text s) = clean_text s := unescape_eq_self h2
  have e3 : removeZW (clean_text s) = clean_text s :=
    removeZW_eq_self (fun c hc => (hgood c hc).1)
  have e4 : nfkcMap (clean_text s) = clean_text s :=
    nfkcMap_eq_self (fun c hc => (hgood c hc).2)
  show wsNorm (nfkcMap (removeZW (unescape (stripTags (clean_text s))))) = clean_text s
  rw [e1, e2, e3, e4]
  exact wsNorm_fixed (nfkcMap (removeZW (unescape (stripTags s)))) h3

unseal stripTags unescape collapseNL in
/-- Claim C1, witness: the amended idempotence theorem applied at the
concrete input `"hello world"`. -/
theorem c1_witness :
    clean_text (clean_text "hello world".data) = clean_text "hello world".data :=
  c1_clean_text_idempotent_amended "hello world".data
    (by decide) (by decide) (by decide)

/-! Price parser and range bucketer, `DataCleaner.clean_price` and
`DataCleaner.get_price_range` (src/data_cleaner.py lines 95-155). -/

/-- The character class `[\d,]` of the price regexes (`\d` restricted
to ASCII digits; the corpus contains no other decimal digits). -/
def isDigitComma (c : Char) : Bool := c.isDigit || c = ','

/-- Python `re.findall(r'[\d,]+', s)`: the maximal non-empty runs of
characters satisfying `p`, left to right. -/
def findRuns (p : Char → Bool) : List Char → List (List Char)
  | [] => []
  | c :: r =>
    if p c then (c :: r.takeWhile p) :: findRuns p (r.dropWhile p)
    else findRuns p r
termination_by l => l.length
decreasing_by
  · have := (List.dropWhile_suffix p (l := r)).length_le
    simp
    omega
  · simp

/-- Python `re.findall(r'[¥￥][\d,]+', s)`: a yen sign followed by a
non-empty run of digits/commas, non-overlapping, left to right. -/
def findYenRuns : List Char → List (List Char)
  | [] => []
  | c :: r =>
    if c = '¥' ∨ c = '￥' then
      match r.takeWhile isDigitComma with
      | [] => findYenRuns r
      | run => (c :: run) :: findYenRuns (r.dropWhile isDigitComma)
    else findYenRuns r
termination_by l => l.length
decreasing_by
  · simp
  · have := (List.dropWhile_suffix isDigitComma (l := r)).length_le
    simp
    omega
  · simp

/-- Python `int(x)` on the comma-free run strings produced above:
raises `ValueError` on the empty string or on any non-digit. -/
def pyInt (l : List Char) : Except String Int :=
  if l = [] then .error "ValueError"
  else if l.all (·.isDigit) then
    .ok (Int.ofNat (l.foldl (fun acc c => acc * 10 + (c.toNat - 48)) 0))
  else .error "ValueError"

/-- The `key` function `lambda x: int(x.replace(',', ''))` of the two
`max` calls. -/
def intKey (x : List Char) : Except String Int := pyInt (pyReplace [','] [] x)

/-- Loop of Python `max(xs, key=intKey)` after the first element: keys
are computed for every element; the first maximal element wins. -/
def pyMaxGo (cur : List Char) (curK : Int) : List (List Char) → Except String (List Char)
  | [] => .ok cur
  | y :: ys =>
    match intKey y with
    | .error e => .error e
    | .ok ky => if curK < ky then pyMaxGo y ky ys else pyMaxGo cur curK ys

/-- Python `max(xs, key=intKey)`: raises if the key raises on any
element (this is how `clean_price(",")` dies in the source). -/
def pyMaxByIntKey : List (List Char) → Except String (List Char)
  | [] => .error "ValueError"
  | x :: xs =>
    match intKey x with
    | .error e => .error e
    | .ok kx => pyMaxGo x kx xs

/-- `DataCleaner.clean_price` (src/data_cleaner.py lines 95-122). -/
def clean_price (price_text : List Char) : Except String (List Char) :=
  if price_text = [] then .ok []
  else
    let price_str := pyStrip price_text
    match findYenRuns price_str with
    | m :: _ => .ok (pyReplace "￥".data "¥".data m)
    | [] =>
      match findRuns isDigitComma price_str with
      | [] => .ok []
      | numbers =>
        match pyMaxByIntKey numbers with
        | .error e => .error e
        | .ok largest => .ok ('¥' :: largest)

/-- The six price buckets (src/data_cleaner.py lines 143-155). -/
def bucketLabel (v : Int) : List Char :=
  if v < 1000 then "< ¥1,000".data
  else if v < 2000 then "¥1,000 - ¥2,000".data
  else if v < 3000 then "¥2,000 - ¥3,000".data
  else if v < 5000 then "¥3,000 - ¥5,000".data
  else if v < 10000 then "¥5,000 - ¥10,000".data
  else "> ¥10,000".data

/-- `DataCleaner.get_price_range` (src/data_cleaner.py lines 124-155).
The inner `int` conversion is wrapped in `try/except ValueError`
(returning `''`), but the `max` call on line 137 is not. -/
def get_price_range (price_text : List Char) : Except String (List Char) :=
  if price_text = [] then .ok []
  else
    match findRuns isDigitComma (pyStrip price_text) with
    | [] => .ok []
    | numbers =>
      match pyMaxByIntKey numbers with
      | .error e => .error e
      | .ok pvs =>
        match intKey pvs with
        | .error _ => .ok []
        | .ok v => .ok (bucketLabel v)

/-- The integer value embedded in a price string: the extraction part
of `get_price_range` (lines 130-141), exposed as a function for the
round-trip theorem of claim C3. -/
def priceValue (p : List Char) : Option Int :=
  match findRuns isDigitComma (pyStrip p) with
  | [] => none
  | numbers =>
    match pyMaxByIntKey numbers with
    | .error _ => none
    | .ok m =>
      match intKey m with
      | .error _ => none
      | .ok v => some v

/-! Record model.  `Option` distinguishes an absent dict key from a
present-but-empty value. -/

deriving instance DecidableEq for Except


/-- A raw scraped record (RawRecord of the spec): the fields
`DataCleaner` reads.  `url`, `title`, `content`, `section` are read
with `.get(k, '')`, so their absence is identified with `''`. -/
structure Article where
  url : List Char := []
  title : List Char := []
  content : List Char := []
  «section» : List Char := []
  date : Option (List Char) := none
  store_name : Option (List Char) := none
  menu_item : Option (List Char) := none
  menu_category : Option (List Char) := none
  price : Option (List Char) := none
  introduction : Option (List Char) := none
  tags : Option (List (List Char)) := none
deriving DecidableEq

/-- A cleaned record (CanonicalRecord of the spec) as the dict built by
`clean_article`: `none` means the key is absent from the dict. -/
structure Cleaned where
  url : List Char
  title : List Char
  content : List Char
  «section» : List Char
  date : Option (List Char)
  store_name : Option (List Char)
  menu_item : Option (List Char)
  menu_category : Option (List Char)
  price : Option (List Char)
  price_range : Option (List Char)
  introduction : Option (List Char)
  tags : Option (List (List Char))
deriving DecidableEq

/-- Strong food keywords (src/data_cleaner.py line 46). -/
def food_keywords : List (List Char) :=
  ["ramen".data, "tsukemen".data, "noodle".data, "soba".data, "chashu".data,
   "pork".data, "chicken".data, "egg".data, "menma".data, "mizuna".data,
   "nori".data, "yuzu".data, "shio".data, "shoyu".data, "soup".data,
   "broth".data, "hotpot".data, "nabe".data, "meat".data, "meatball".data,
   "bamboo".data, "spicy".data, "seasoned".data, "ingredient".data,
   "duck".data, "char siu".data, "nitamago".data, "gohan".data,
   "roast".data, "fillet".data, "charred".data]

/-- Non-food override patterns matched against the title only
(src/data_cleaner.py lines 50-56). -/
def non_food_patterns_in_title : List (List Char) :=
  ["original ramen bowl".data, "original bowl".data, "half ramen bowl".data,
   "original mug".data, "original tokkuri".data, "ramen tebo".data,
   "t-shirt".data, "tshirt".data, "socks".data, "apron".data,
   "typography t-shirt".data, "gift wrapping".data, "noshi".data,
   "eco bag".data, "umbrella".data, "thermos".data, "pin badge".data,
   "charm".data, "keychain".data, "20th anniversary".data]

/-- Non-food override patterns matched anywhere in the combined text
(src/data_cleaner.py lines 59-61). -/
def non_food_patterns_anywhere : List (List Char) :=
  ["afuri original rice bowl".data, "original rice bowl".data]

/-- The non-food keyword table used when no food keyword is present
(src/data_cleaner.py lines 78-83), flattened in dict insertion order. -/
def non_food_keywords : List (List Char) :=
  ["original bowl".data, "original mug".data, "original tokkuri".data,
   "ramen tebo".data, "rice bowl".data, "half ramen bowl".data,
   "t-shirt".data, "tshirt".data, "shirt".data, "cap".data, "hat".data,
   "帽子".data, "socks".data, "apron".data, "sweatshirt".data, "hoodie".data,
   "gift wrapping".data, "noshi".data, "towel".data, "毛巾".data,
   "eco bag".data, "umbrella".data, "thermos".data, "pin".data,
   "badge".data, "charm".data, "keychain".data, "キーホルダー".data,
   "poster".data, "calendar".data, "カレンダー".data,
   "sticker".data, "book".data, "本".data, "magazine".data, "雑誌".data]

/-- `DataCleaner.is_non_food_product` (src/data_cleaner.py lines
39-93). -/
def is_non_food_product (a : Article) : Bool :=
  let title := strLower a.title
  let content := strLower a.content
  let combined := title ++ ' ' :: content
  if food_keywords.any (fun kw => pyIn kw combined) then
    if non_food_patterns_in_title.any (fun p => pyIn p title) then true
    else if non_food_patterns_anywhere.any (fun p => pyIn p combined) then true
    else false
  else
    non_food_keywords.any (fun kw => pyIn kw combined)

/-- `DataCleaner.is_valid_article` (src/data_cleaner.py lines
180-200). -/
def is_valid_article (a : Article) : Bool :=
  let title := pyStrip a.title
  if title = [] then false
  else if a.«section» = "Menu".data then true
  else
    let min_length := if a.«section» = "Store Information".data then 20 else 50
    min_length ≤ a.content.length

/-- Keywords of the content-based introduction heuristic
(src/data_cleaner.py line 248). -/
def introduction_keywords : List (List Char) :=
  ["broth".data, "chashu".data, "nori".data, "egg".data, "yuzu".data,
   "menma".data, "mizuna".data, "dashi".data, "shoyu".data,
   "chicken".data, "nitamago".data, "negi".data]

/-- The reversed-line scan of the introduction heuristic
(src/data_cleaner.py lines 242-251); the argument is the list of
content lines already reversed. -/
def findIntroRev : List (List Char) → List Char
  | [] => []
  | line :: rest =>
    let l := pyStrip line
    if pyIn [','] l ∧ 20 < l.length ∧
        introduction_keywords.any (fun kw => pyIn kw (strLower l)) then l
    else findIntroRev rest

/-- The price/price_range pair set by `clean_article`
(src/data_cleaner.py lines 220-232). -/
def priceFields (a : Article) : Except String (Option (List Char) × Option (List Char)) :=
  match a.price with
  | some v =>
    if v ≠ [] then
      match clean_price v with
      | .error e => .error e
      | .ok p =>
        match get_price_range p with
        | .error e => .error e
        | .ok pr => .ok (some p, some pr)
    else .ok (some [], some [])
  | none => .ok (some [], some [])

/-- The tags list built by `clean_article` before the non-food step
(src/data_cleaner.py lines 257-260). -/
def tags0Of (a : Article) : List (List Char) :=
  match a.tags with
  | some ts =>
    if ts ≠ [] then
      ts.filterMap (fun t => if pyStrip t ≠ [] then some (pyStrip t) else none)
    else []
  | none => []

/-- The final tags list, after the non-food `others` append
(src/data_cleaner.py lines 262-265). -/
def tagsOf (a : Article) : List (List Char) :=
  if pyStrip a.«section» = "Menu".data ∧ is_non_food_product a then
    if "others".data ∈ tags0Of a then tags0Of a else tags0Of a ++ ["others".data]
  else tags0Of a

/-- The introduction string chosen by `clean_article`
(src/data_cleaner.py lines 234-251). -/
def introOf (a : Article) : List Char :=
  let content := clean_text a.content
  let introFromContent :=
    if content ≠ [] ∧ pyStrip a.«section» = "Menu".data then
      findIntroRev (splitNl content).reverse
    else []
  match a.introduction with
  | some i => if pyStrip i ≠ [] then pyStrip i else introFromContent
  | none => introFromContent

/-- The `menu_category` field: the `Others` override for non-food Menu
records, else the stripped input value (src/data_cleaner.py lines
218-219 and 267-269). -/
def menuCategoryOf (a : Article) : Option (List Char) :=
  if pyStrip a.«section» = "Menu".data ∧ "others".data ∈ tagsOf a then
    some "Others".data
  else a.menu_category.map pyStrip

/-- The `date` field (src/data_cleaner.py lines 212-213). -/
def dateOf (a : Article) : Option (List Char) :=
  match a.date with
  | some d => if d ≠ [] then some (pyStrip d) else none
  | none => none

/-- The record built by `DataCleaner.clean_article` (src/data_cleaner.py
lines 202-271) once the price pair is computed; the locals of the
Python function are the named helper functions above. -/
def cleanedCore (a : Article) (priceF price_rangeF : Option (List Char)) : Cleaned :=
  { url := pyStrip a.url
    title := clean_text a.title
    content := clean_text a.content
    «section» := pyStrip a.«section»
    date := dateOf a
    store_name := a.store_name.map pyStrip
    menu_item := a.menu_item.map pyStrip
    menu_category := menuCategoryOf a
    price := priceF
    price_range := price_rangeF
    introduction := if introOf a ≠ [] then some (introOf a) else none
    tags := some (tagsOf a) }

/-- `DataCleaner.clean_article` (src/data_cleaner.py lines 202-271).
The price path can raise `ValueError` (through `clean_price` or
`get_price_range`), hence the `Except`. -/
def clean_article (a : Article) : Except String Cleaned :=
  match priceFields a with
  | .error e => .error e
  | .ok (priceF, price_rangeF) => .ok (cleanedCore a priceF price_rangeF)

/-- One iteration of the cleaning loop of `DataCleaner.clean_all`
(src/data_cleaner.py lines 311-327): validity filter, cleaning, the
cleaned-title check and the Menu content back-fill; `none` means the
record was removed. -/
def processArticle (a : Article) : Except String (Option Cleaned) :=
  if ¬ is_valid_article a then .ok none
  else
    match clean_article a with
    | .error e => .error e
    | .ok c =>
      if c.title ≠ [] then
        if c.content = [] ∧ c.«section» = "Menu".data then
          .ok (some { c with content := c.title })
        else .ok (some c)
      else .ok none

/-! Deduplicator, `DataCleaner.remove_duplicates` (src/data_cleaner.py
lines 273-299). -/

/-- The deduplication identity key (lines 282-291); absent fields read
as `''` through `.get`. -/
def identifier (c : Cleaned) : List Char :=
  if c.«section» = "Menu".data then
    match c.menu_item.getD [] with
    | [] => c.url
    | mi => c.url ++ ':' :: (c.menu_category.getD []) ++ ':' :: mi
  else if c.«section» = "Store Information".data then
    match c.store_name.getD [] with
    | [] => c.url
    | sn => c.url ++ ':' :: sn
  else c.url

/-- The seen-set loop of `remove_duplicates` (lines 276-298): a record
is kept when its key is non-empty (`if identifier`) and not seen yet. -/
def removeDupAux (seen : List (List Char)) : List Cleaned → List Cleaned
  | [] => []
  | a :: rest =>
    if identifier a ≠ [] ∧ identifier a ∉ seen then
      a :: removeDupAux (identifier a :: seen) rest
    else removeDupAux seen rest

/-- `DataCleaner.remove_duplicates`. -/
def remove_duplicates (l : List Cleaned) : List Cleaned := removeDupAux [] l

/-- Deduplication as the specification words it (amended for claim C2):
a record whose key is empty is dropped; the first record with each
non-empty key is kept and every later record with the same key is
dropped. -/
def keepFirstSpec : List Cleaned → List Cleaned
  | [] => []
  | a :: rest =>
    if identifier a = [] then keepFirstSpec rest
    else a :: keepFirstSpec (rest.filter (fun b => identifier b ≠ identifier a))
termination_by l => l.length
decreasing_by
  · simp
  · have := List.length_filter_le (fun b => !decide (identifier b = identifier a)) rest
    simp
    omega

theorem keepFirstSpec_nil : keepFirstSpec [] = [] := by
  rw [keepFirstSpec]

theorem keepFirstSpec_cons_empty {a : Cleaned} {rest : List Cleaned}
    (h : identifier a = []) : keepFirstSpec (a :: rest) = keepFirstSpec rest := by
  rw [keepFirstSpec.eq_def]
  simp [h]

theorem keepFirstSpec_cons {a : Cleaned} {rest : List Cleaned}
    (h : identifier a ≠ []) : keepFirstSpec (a :: rest) =
      a :: keepFirstSpec (rest.filter (fun b => identifier b ≠ identifier a)) := by
  rw [keepFirstSpec.eq_def]
  simp [h]

theorem removeDupAux_eq_keepFirstSpec :
    ∀ (l : List Cleaned) (seen : List (List Char)),
      removeDupAux seen l = keepFirstSpec (l.filter (fun b => identifier b ∉ seen))
  | [], seen => by simp [removeDupAux, keepFirstSpec_nil]
  | a :: rest, seen => by
    simp only [removeDupAux]
    by_cases hid : identifier a ≠ [] ∧ identifier a ∉ seen
    · rw [if_pos hid]
      have hfil : (a :: rest).filter (fun b => identifier b ∉ seen) =
          a :: rest.filter (fun b => identifier b ∉ seen) := by
        simp [List.filter_cons, hid.2]
      rw [hfil, keepFirstSpec_cons hid.1]
      rw [removeDupAux_eq_keepFirstSpec rest (identifier a :: seen)]
      have hptw : rest.filter (fun b => identifier b ∉ identifier a :: seen) =
          (rest.filter (fun b => identifier b ∉ seen)).filter
            (fun b => identifier b ≠ identifier a) := by
        rw [List.filter_filter]
        apply List.filter_congr
        intro b _
        by_cases h1 : identifier b = identifier a <;>
          by_cases h2 : identifier b ∈ seen <;> simp [h1, h2]
      rw [hptw]
    · rw [if_neg hid]
      rw [removeDupAux_eq_keepFirstSpec rest seen]
      rw [Decidable.not_and_iff_or_not] at hid
      by_cases hseen : identifier a ∈ seen
      · have hfil : (a :: rest).filter (fun b => identifier b ∉ seen) =
            rest.filter (fun b => identifier b ∉ seen) := by
          simp [List.filter_cons, hseen]
        rw [hfil]
      · have hempty : identifier a = [] := by
          rcases hid with hid | hid
          · simpa using hid
          · exact absurd (by simpa using hid) hseen
        have hfil : (a :: rest).filter (fun b => identifier b ∉ seen) =
            a :: rest.filter (fun b => identifier b ∉ seen) := by
          simp [List.filter_cons, hseen]
        rw [hfil, keepFirstSpec_cons_empty hempty]

theorem mem_removeDupAux_not_seen :
    ∀ {l : List Cleaned} {seen : List (List Char)} {c : Cleaned},
      c ∈ removeDupAux seen l → identifier c ∉ seen ∧ identifier c ≠ []
  | [], seen, c, h => by simp [removeDupAux] at h
  | a :: rest, seen, c, h => by
    simp only [removeDupAux] at h
    by_cases hid : identifier a ≠ [] ∧ identifier a ∉ seen
    · rw [if_pos hid] at h
      rcases List.mem_cons.mp h with rfl | h
      · exact ⟨hid.2, hid.1⟩
      · have := mem_removeDupAux_not_seen h
        refine ⟨?_, this.2⟩
        intro hmem
        exact this.1 (List.mem_cons_of_mem _ hmem)
    · rw [if_neg hid] at h
      exact mem_removeDupAux_not_seen h

theorem pairwise_removeDupAux :
    ∀ (l : List Cleaned) (seen : List (List Char)),
      (removeDupAux seen l).Pairwise (fun a b => identifier a ≠ identifier b)
  | [], seen => by simp [removeDupAux]
  | a :: rest, seen => by
    simp only [removeDupAux]
    by_cases hid : identifier a ≠ [] ∧ identifier a ∉ seen
    · rw [if_pos hid]
      refine List.Pairwise.cons ?_ (pairwise_removeDupAux rest (identifier a :: seen))
      intro b hb
      have := (mem_removeDupAux_not_seen hb).1
      intro heq
      exact this (heq ▸ List.mem_cons_self _ _)
    · rw [if_neg hid]
      exact pairwise_removeDupAux rest seen

/-- A cleaned record whose deduplication key is empty: empty `url` and
a section that is neither Menu nor Store Information. -/
def c2Record : Cleaned :=
  { url := [], title := "t".data, content := "some brand text".data,
    «section» := "Brand Information".data, date := none, store_name := none,
    menu_item := none, menu_category := none, price := some [],
    price_range := some [], introduction := none, tags := some [] }

/-- Claim C2, counterexample: the claim says the first record observed
with each key is kept, but a record whose key is the empty string (here:
empty url, section neither Menu nor Store Information) is dropped by
`remove_duplicates` even though it is the first record with that key. -/
theorem c2_counterexample :
    identifier c2Record = [] ∧ remove_duplicates [c2Record] = [] := by
  decide

/-- Claim C2 (amended): `remove_duplicates` keeps, for every non-empty
deduplication key, exactly the first record observed with that key,
drops every later record with the same key, and drops every record
whose key is empty; in particular no two output records share a key.
`keepFirstSpec` is this amended specification written as a recursive
definition. -/
theorem c2_dedup_first_kept_and_unique (l : List Cleaned) :
    remove_duplicates l = keepFirstSpec l ∧
    (remove_duplicates l).Pairwise (fun a b => identifier a ≠ identifier b) := by
  constructor
  · have h := removeDupAux_eq_keepFirstSpec l []
    have hfil : l.filter (fun b => identifier b ∉ ([] : List (List Char))) = l := by
      simp
    rw [hfil] at h
    exact h
  · exact pairwise_removeDupAux l []

/-! Claims about the price functions, the validity filter and the
non-food classifier. -/

theorem clean_article_ok {a : Article} {c : Cleaned}
    (hc : clean_article a = .ok c) :
    ∃ pf prf, priceFields a = .ok (pf, prf) ∧ c = cleanedCore a pf prf := by
  unfold clean_article at hc
  cases hpf : priceFields a with
  | error e => rw [hpf] at hc; simp at hc
  | ok pair =>
    rw [hpf] at hc
    obtain ⟨pf, prf⟩ := pair
    simp only at hc
    injection hc with h
    exact ⟨pf, prf, rfl, h.symm⟩

theorem cleanedCore_price (a : Article) (pf prf : Option (List Char)) :
    (cleanedCore a pf prf).price = pf := rfl

theorem cleanedCore_price_range (a : Article) (pf prf : Option (List Char)) :
    (cleanedCore a pf prf).price_range = prf := rfl

theorem cleanedCore_title (a : Article) (pf prf : Option (List Char)) :
    (cleanedCore a pf prf).title = clean_text a.title := rfl

theorem get_price_range_of_priceValue {p : List Char} {v : Int}
    (hne : p ≠ []) (hv : priceValue p = some v) :
    get_price_range p = .ok (bucketLabel v) := by
  unfold priceValue at hv
  unfold get_price_range
  rw [if_neg hne]
  cases hruns : findRuns isDigitComma (pyStrip p) with
  | nil => rw [hruns] at hv; simp at hv
  | cons n ns =>
    rw [hruns] at hv
    simp only at hv ⊢
    cases hmax : pyMaxByIntKey (n :: ns) with
    | error e => rw [hmax] at hv; simp at hv
    | ok m =>
      rw [hmax] at hv
      simp only at hv ⊢
      cases hkey : intKey m with
      | error e => rw [hkey] at hv; simp at hv
      | ok v2 =>
        rw [hkey] at hv
        simp only [Option.some.injEq] at hv
        rw [hv]

/-- Claim C3: for every record whose cleaned price is a non-empty
string `p` produced by `clean_price`, the record's `price_range` is
exactly `get_price_range p`, and `get_price_range` buckets the integer
value embedded in `p` (`priceValue p`). -/
theorem c3_price_round_trip (a : Article) (c : Cleaned) (p : List Char) (v : Int)
    (hc : clean_article a = .ok c) (hp : c.price = some p) (hne : p ≠ [])
    (hv : priceValue p = some v) :
    c.price_range = some (bucketLabel v) ∧
      get_price_range p = .ok (bucketLabel v) := by
  have hrt := get_price_range_of_priceValue hne hv
  refine ⟨?_, hrt⟩
  obtain ⟨pf, prf, hpf, rfl⟩ := clean_article_ok hc
  rw [cleanedCore_price] at hp
  rw [cleanedCore_price_range]
  unfold priceFields at hpf
  cases hap : a.price with
  | none =>
    rw [hap] at hpf
    simp only [Except.ok.injEq, Prod.mk.injEq] at hpf
    rw [← hpf.1] at hp
    simp only [Option.some.injEq] at hp
    exact absurd hp.symm hne
  | some v0 =>
    rw [hap] at hpf
    simp only [ne_eq] at hpf
    by_cases hv0 : v0 ≠ []
    · rw [if_pos (by simpa using hv0)] at hpf
      cases hcp : clean_price v0 with
      | error e => rw [hcp] at hpf; simp at hpf
      | ok p0 =>
        rw [hcp] at hpf
        simp only at hpf
        cases hgp : get_price_range p0 with
        | error e => rw [hgp] at hpf; simp at hpf
        | ok pr0 =>
          rw [hgp] at hpf
          simp only [Except.ok.injEq, Prod.mk.injEq] at hpf
          rw [← hpf.1] at hp
          simp only [Option.some.injEq] at hp
          rw [hp] at hgp
          rw [hgp] at hrt
          injection hrt with hrt2
          rw [← hpf.2, hrt2]
    · rw [if_neg (by simpa using hv0)] at hpf
      simp only [Except.ok.injEq, Prod.mk.injEq] at hpf
      rw [← hpf.1] at hp
      simp only [Option.some.injEq] at hp
      exact absurd hp.symm hne

/-- The article of the C3 witness: a minimal record with price
`"¥3,580"`. -/
def c3Article : Article :=
  { url := "u".data, title := "t".data, price := some "¥3,580".data }

/-- The cleaned record produced from `c3Article`. -/
def c3Cleaned : Cleaned :=
  { url := "u".data, title := "t".data, content := [], «section» := [],
    date := none, store_name := none, menu_item := none, menu_category := none,
    price := some "¥3,580".data, price_range := some "¥3,000 - ¥5,000".data,
    introduction := none, tags := some [] }

unseal stripTags unescape collapseNL pyReplace findRuns findYenRuns in
/-- Claim C3, witness: the round-trip theorem at the concrete price
`"¥3,580"`, whose bucket is `"¥3,000 - ¥5,000"`. -/
theorem c3_witness :
    c3Cleaned.price_range = some (bucketLabel 3580) ∧
      get_price_range "¥3,580".data = .ok (bucketLabel 3580) :=
  c3_price_round_trip c3Article c3Cleaned "¥3,580".data 3580
    (by decide) (by decide) (by decide) (by decide)

unseal pyReplace findRuns findYenRuns in
/-- Claim C7: the price functions are not total — on the input `","`
the key function `int(x.replace(',', ''))` of the `max` call receives
the empty string and raises `ValueError`, in both `clean_price` and
`get_price_range` (the `try/except` in the latter only guards the later
`int` call, not the `max` on line 137). -/
theorem c7_price_functions_raise :
    clean_price ",".data = .error "ValueError" ∧
      get_price_range ",".data = .error "ValueError" := by
  decide

/-- Whether `clean_article` succeeds without raising. -/
def cleanSucceeds (a : Article) : Bool :=
  match clean_article a with
  | .ok _ => true
  | .error _ => false

/-- Whether a record survives the per-article cleaning loop of
`clean_all` (validity filter plus cleaned-title check). -/
def keptArticle (a : Article) : Bool :=
  match processArticle a with
  | .ok (some _) => true
  | _ => false

theorem is_valid_article_iff (a : Article) :
    is_valid_article a = true ↔
      (pyStrip a.title ≠ [] ∧
        (a.«section» = "Menu".data ∨
         (a.«section» = "Store Information".data ∧ 20 ≤ a.content.length) ∨
         (a.«section» ≠ "Menu".data ∧ a.«section» ≠ "Store Information".data ∧
          50 ≤ a.content.length))) := by
  unfold is_valid_article
  by_cases h1 : pyStrip a.title = []
  · simp [h1]
  · by_cases h2 : a.«section» = "Menu".data
    · simp [h1, h2]
    · by_cases h3 : a.«section» = "Store Information".data
      · simp [h1, h2, h3]
      · simp [h1, h2, h3]

theorem keptArticle_iff {a : Article} {c : Cleaned}
    (hca : clean_article a = .ok c) :
    keptArticle a = true ↔ (is_valid_article a = true ∧ c.title ≠ []) := by
  unfold keptArticle processArticle
  rw [hca]
  by_cases hval : is_valid_article a = true
  · simp only [hval, not_true, if_false]
    by_cases hct : c.title ≠ []
    · rw [if_pos hct]
      by_cases hcc : c.content = [] ∧ c.«section» = "Menu".data
      · rw [if_pos hcc]
        simp [hval, hct]
      · rw [if_neg hcc]
        simp [hval, hct]
    · rw [if_neg hct]
      simp [hval, hct]
  · simp only [Bool.not_eq_true] at hval
    simp [hval]

/-- Claim C4 (amended): provided `clean_article` does not raise, a
record is kept by the cleaning loop iff its raw stripped title is
non-empty, its cleaned title is non-empty, and the section rule holds
(Menu records always; Store Information with raw content length at
least 20; any other section with raw content length at least 50).  The
claim as stated omits the cleaned-title condition. -/
theorem c4_validity_amended (a : Article) (h : cleanSucceeds a = true) :
    keptArticle a = true ↔
      (pyStrip a.title ≠ [] ∧ clean_text a.title ≠ [] ∧
        (a.«section» = "Menu".data ∨
         (a.«section» = "Store Information".data ∧ 20 ≤ a.content.length) ∨
         (a.«section» ≠ "Menu".data ∧ a.«section» ≠ "Store Information".data ∧
          50 ≤ a.content.length))) := by
  unfold cleanSucceeds at h
  cases hca : clean_article a with
  | error e => rw [hca] at h; simp at h
  | ok c =>
    have htitle : c.title = clean_text a.title := by
      obtain ⟨pf, prf, hpf, rfl⟩ := clean_article_ok hca
      exact cleanedCore_title a pf prf
    rw [keptArticle_iff hca, is_valid_article_iff, htitle]
    tauto

/-- The Menu record of the C4 counterexample: a title that is non-empty
but consists of a single HTML tag. -/
def c4Record : Article := { title := "<x>".data, «section» := "Menu".data }

unseal stripTags unescape collapseNL in
/-- Claim C4, counterexample: this record has a non-empty title and
section Menu, so the claim as stated says it is kept; the code drops it
because the cleaned title (after HTML-tag stripping) is empty. -/
theorem c4_counterexample :
    pyStrip c4Record.title ≠ [] ∧ c4Record.«section» = "Menu".data ∧
      keptArticle c4Record = false := by
  decide

/-- A record used to witness the amended validity rule. -/
def c4WitnessRecord : Article :=
  { title := "About AFURI".data,
    content := "AFURI is a ramen restaurant group from Tokyo with yuzu shio ramen as its signature dish.".data,
    «section» := "Brand Information".data }

unseal stripTags unescape collapseNL in
/-- Claim C4, witness: the amended validity theorem at a concrete
record that is kept. -/
theorem c4_witness :
    keptArticle c4WitnessRecord = true ↔
      (pyStrip c4WitnessRecord.title ≠ [] ∧ clean_text c4WitnessRecord.title ≠ [] ∧
        (c4WitnessRecord.«section» = "Menu".data ∨
         (c4WitnessRecord.«section» = "Store Information".data ∧
          20 ≤ c4WitnessRecord.content.length) ∨
         (c4WitnessRecord.«section» ≠ "Menu".data ∧
          c4WitnessRecord.«section» ≠ "Store Information".data ∧
          50 ≤ c4WitnessRecord.content.length))) :=
  c4_validity_amended c4WitnessRecord (by decide)

/-- The food-keyword test of `is_non_food_product` over the combined
lower-cased title and content (src/data_cleaner.py lines 43-64). -/
def hasFoodKeyword (a : Article) : Bool :=
  food_keywords.any (fun kw => pyIn kw (strLower a.title ++ ' ' :: strLower a.content))

/-- The title-only non-food override test (src/data_cleaner.py line 68). -/
def titleOverride (a : Article) : Bool :=
  non_food_patterns_in_title.any (fun p => pyIn p (strLower a.title))

/-- The anywhere non-food override test against the combined text
(src/data_cleaner.py line 71). -/
def anywhereOverride (a : Article) : Bool :=
  non_food_patterns_anywhere.any (fun p => pyIn p (strLower a.title ++ ' ' :: strLower a.content))

/-- Claim C6 (amended): when the combined text contains a strong food
keyword, `is_non_food_product` returns true iff the title matches a
title-override pattern or the combined text matches one of the two
"original rice bowl" anywhere-patterns; so override patterns are not
matched only against the title. -/
theorem c6_override_amended (a : Article) (h : hasFoodKeyword a = true) :
    is_non_food_product a = true ↔
      (titleOverride a = true ∨ anywhereOverride a = true) := by
  unfold hasFoodKeyword at h
  unfold is_non_food_product titleOverride anywhereOverride
  simp only
  rw [if_pos h]
  by_cases h1 : non_food_patterns_in_title.any (fun p => pyIn p (strLower a.title)) = true
  · simp [h1]
  · simp only [Bool.not_eq_true] at h1
    rw [h1]
    simp only [Bool.false_eq_true, false_or, if_false]
    by_cases h2 : non_food_patterns_anywhere.any
        (fun p => pyIn p (strLower a.title ++ ' ' :: strLower a.content)) = true
    · simp [h2]
    · simp only [Bool.not_eq_true] at h2
      rw [h2]
      simp

/-- The record of the C6 counterexample: "pork" is a food keyword, the
title matches no title-override pattern, but the content contains the
anywhere-pattern "original rice bowl". -/
def c6Record : Article :=
  { title := "Pork snack".data,
    content := "comes with our original rice bowl".data }

/-- Claim C6, counterexample: a record whose combined text has a food
keyword and whose title matches no override pattern is still classified
non-food, because the "original rice bowl" pattern is matched against
the combined text, not only the title. -/
theorem c6_counterexample :
    hasFoodKeyword c6Record = true ∧ titleOverride c6Record = false ∧
      is_non_food_product c6Record = true := by
  decide

/-- Claim C6, witness: the amended override theorem at the concrete
counterexample record. -/
theorem c6_witness :
    is_non_food_product c6Record = true ↔
      (titleOverride c6Record = true ∨ anywhereOverride c6Record = true) :=
  c6_override_amended c6Record (by decide)

theorem priceFields_isSome {a : Article} {pf prf : Option (List Char)}
    (h : priceFields a = .ok (pf, prf)) : pf.isSome = true ∧ prf.isSome = true := by
  unfold priceFields at h
  cases hap : a.price with
  | none =>
    rw [hap] at h
    simp only [Except.ok.injEq, Prod.mk.injEq] at h
    rw [← h.1, ← h.2]
    exact ⟨rfl, rfl⟩
  | some v =>
    rw [hap] at h
    simp only [ne_eq] at h
    by_cases hv : ¬ v = []
    · rw [if_pos hv] at h
      cases hcp : clean_price v with
      | error e => rw [hcp] at h; simp at h
      | ok p0 =>
        rw [hcp] at h
        simp only at h
        cases hgp : get_price_range p0 with
        | error e => rw [hgp] at h; simp at h
        | ok pr0 =>
          rw [hgp] at h
          simp only [Except.ok.injEq, Prod.mk.injEq] at h
          rw [← h.1, ← h.2]
          exact ⟨rfl, rfl⟩
    · rw [if_neg hv] at h
      simp only [Except.ok.injEq, Prod.mk.injEq] at h
      rw [← h.1, ← h.2]
      exact ⟨rfl, rfl⟩

/-- Claim C10 (amended): in a `clean_article` output, `price`,
`price_range` and `tags` are always present (possibly empty);
`introduction` is present only when non-empty; `date` is present iff
the raw date is present and non-empty (its stripped value may still be
empty); `store_name` and `menu_item` are present iff present in the
input (possibly empty); `menu_category` is present iff present in the
input or forced to `Others` for a Menu record tagged `others`. -/
theorem if_some_ne {X i : List Char}
    (h : (if X ≠ [] then some X else none) = some i) : i ≠ [] := by
  by_cases hx : X ≠ []
  · rw [if_pos hx] at h
    injection h with h2
    rw [← h2]
    exact hx
  · rw [if_neg hx] at h
    simp at h

theorem c10_optional_fields_amended (a : Article) (c : Cleaned)
    (hc : clean_article a = .ok c) :
    c.price.isSome = true ∧ c.price_range.isSome = true ∧ c.tags.isSome = true ∧
    (∀ i, c.introduction = some i → i ≠ []) ∧
    (c.date.isSome = true ↔ ∃ d, a.date = some d ∧ d ≠ []) ∧
    (c.store_name.isSome = true ↔ a.store_name.isSome = true) ∧
    (c.menu_item.isSome = true ↔ a.menu_item.isSome = true) ∧
    (c.menu_category.isSome = true ↔
      (a.menu_category.isSome = true ∨
        (pyStrip a.«section» = "Menu".data ∧
          ∃ ts, c.tags = some ts ∧ "others".data ∈ ts))) := by
  obtain ⟨pf, prf, hpf, rfl⟩ := clean_article_ok hc
  have hps := priceFields_isSome hpf
  refine ⟨hps.1, hps.2, rfl, ?_, ?_, ?_, ?_, ?_⟩
  · intro i hi
    exact if_some_ne (show (if introOf a ≠ [] then some (introOf a) else none) = some i from hi)
  · show (dateOf a).isSome = true ↔ _
    unfold dateOf
    cases a.date with
    | none => simp
    | some d =>
      by_cases hd : d ≠ []
      · simp [hd]
      · simp only [ne_eq, Decidable.not_not] at hd
        simp [hd]
  · show (a.store_name.map pyStrip).isSome = true ↔ _
    cases a.store_name <;> simp
  · show (a.menu_item.map pyStrip).isSome = true ↔ _
    cases a.menu_item <;> simp
  · show (menuCategoryOf a).isSome = true ↔ _
    unfold menuCategoryOf
    by_cases hcond : pyStrip a.«section» = "Menu".data ∧ "others".data ∈ tagsOf a
    · rw [if_pos hcond]
      simp only [Option.isSome_some, true_iff]
      exact Or.inr ⟨hcond.1, tagsOf a, rfl, hcond.2⟩
    · rw [if_neg hcond]
      constructor
      · intro hsome
        left
        cases hmc : a.menu_category with
        | none => rw [hmc] at hsome; simp at hsome
        | some m => simp
      · intro hr
        rcases hr with hr | hr
        · cases hmc : a.menu_category with
          | none => rw [hmc] at hr; simp at hr
          | some m => simp
        · exfalso
          apply hcond
          obtain ⟨ts, hts, hmem⟩ := hr.2
          have : tagsOf a = ts := by
            have hts2 : some (tagsOf a) = some ts := hts
            injection hts2
          exact ⟨hr.1, this ▸ hmem⟩

/-- The record of the C10 counterexample: no optional field present in
the input. -/
def c10Record : Article :=
  { url := "u".data, title := "t".data, content := "c".data, «section» := "x".data }

/-- The cleaned record produced from `c10Record`: `price`,
`price_range` and `tags` are present though empty. -/
def c10Expected : Cleaned :=
  { url := "u".data, title := "t".data, content := "c".data, «section» := "x".data,
    date := none, store_name := none, menu_item := none, menu_category := none,
    price := some [], price_range := some [], introduction := none,
    tags := some [] }

unseal stripTags unescape collapseNL in
/-- Claim C10, counterexample: a record with no price key at all is
cleaned to a record whose `price`, `price_range` and `tags` keys are
present with empty values, so absent-or-empty optional fields are not
omitted. -/
theorem c10_counterexample :
    clean_article c10Record = .ok c10Expected ∧
      c10Expected.price = some [] ∧ c10Expected.price_range = some [] ∧
      c10Expected.tags = some [] := by
  decide

unseal stripTags unescape collapseNL in
/-- Claim C10, witness: the amended field-presence theorem at the
concrete record `c10Record`. -/
theorem c10_witness :
    c10Expected.price.isSome = true ∧ c10Expected.price_range.isSome = true ∧
    c10Expected.tags.isSome = true ∧
    (∀ i, c10Expected.introduction = some i → i ≠ []) ∧
    (c10Expected.date.isSome = true ↔ ∃ d, c10Record.date = some d ∧ d ≠ []) ∧
    (c10Expected.store_name.isSome = true ↔ c10Record.store_name.isSome = true) ∧
    (c10Expected.menu_item.isSome = true ↔ c10Record.menu_item.isSome = true) ∧
    (c10Expected.menu_category.isSome = true ↔
      (c10Record.menu_category.isSome = true ∨
        (pyStrip c10Record.«section» = "Menu".data ∧
          ∃ ts, c10Expected.tags = some ts ∧ "others".data ∈ ts))) :=
  c10_optional_fields_amended c10Record c10Expected (by decide)

/-! Encoding repair, `RamenScraper.fix_encoding` (src/scraper.py lines
26-60). -/

/-- The mojibake replacement table of `fix_encoding` (lines 32-44), in
dict insertion order; keys are the cp1252 renderings of the UTF-8 bytes
of the intended characters. -/
def mojibakeFixes : List (List Char × List Char) :=
  [("ï¼ˆ".data, "（".data),
   ("ï¼‰".data, "）".data),
   ("ï¼»".data, "［".data),
   ("ï¼½".data, "］".data),
   ("ã€‚".data, "。".data),
   ("ã€".data, "、".data),
   ("æœ¬".data, "本".data),
   ("ã‚»ãƒƒãƒˆ".data,
    "セット".data),
   ("åŒæ¢±".data, "同梱".data),
   ("ä¸å¯".data, "不可".data),
   ("å“".data, "品".data)]

/-- The replacement pass of `fix_encoding` (lines 46-47). -/
def applyFixes (t : List Char) : List Char :=
  mojibakeFixes.foldl (fun acc p => pyReplace p.1 p.2 acc) t

/-- Number of characters with code point above 127 (line 50). -/
def nonAsciiCount (l : List Char) : Nat := (l.filter (fun c => 127 < c.toNat)).length

/-- The mojibake detection condition of `fix_encoding` (line 50); the
float threshold `len(text) * 0.1` is modelled as the exact rational
comparison `10 * count > len`. -/
def mojibakeDetect (t : List Char) : Bool :=
  pyIn "ï¼".data t ∨
    (pyIn "ã".data t ∧ t.length < 10 * nonAsciiCount t)

/-- The acceptance check on the round-trip result (line 55). -/
def roundTripAccept (fixed : List Char) : Bool :=
  ¬ pyIn "ï¼".data fixed ∧ ¬ pyIn "ã".data (fixed.take 100)

/-- Python `text.encode('latin-1', errors='ignore')`: code points above
U+00FF are dropped. -/
def latin1EncodeIgnore (l : List Char) : List Nat :=
  l.filterMap (fun c => if c.toNat ≤ 255 then some c.toNat else none)

/-- Is `b` a UTF-8 continuation byte? -/
def isCont (b : Nat) : Bool := 0x80 ≤ b ∧ b ≤ 0xBF

/-- Python `bytes.decode('utf-8', errors='ignore')`: standard UTF-8
decoding where an invalid maximal subpart is skipped and decoding
resumes at the following byte. -/
def utf8DecodeIgnore : List Nat → List Char
  | [] => []
  | b :: r =>
    if b < 0x80 then Char.ofNat b :: utf8DecodeIgnore r
    else if 0xC2 ≤ b ∧ b ≤ 0xDF then
      match r with
      | [] => []
      | b2 :: r2 =>
        if isCont b2 then
          Char.ofNat ((b - 0xC0) * 64 + (b2 - 0x80)) :: utf8DecodeIgnore r2
        else utf8DecodeIgnore (b2 :: r2)
    else if 0xE0 ≤ b ∧ b ≤ 0xEF then
      match r with
      | [] => []
      | b2 :: r2 =>
        if (b = 0xE0 ∧ 0xA0 ≤ b2 ∧ b2 ≤ 0xBF) ∨
            (b = 0xED ∧ 0x80 ≤ b2 ∧ b2 ≤ 0x9F) ∨
            (b ≠ 0xE0 ∧ b ≠ 0xED ∧ isCont b2) then
          match r2 with
          | [] => []
          | b3 :: r3 =>
            if isCont b3 then
              Char.ofNat ((b - 0xE0) * 4096 + (b2 - 0x80) * 64 + (b3 - 0x80)) ::
                utf8DecodeIgnore r3
            else utf8DecodeIgnore (b3 :: r3)
        else utf8DecodeIgnore (b2 :: r2)
    else if 0xF0 ≤ b ∧ b ≤ 0xF4 then
      match r with
      | [] => []
      | b2 :: r2 =>
        if (b = 0xF0 ∧ 0x90 ≤ b2 ∧ b2 ≤ 0xBF) ∨
            (b = 0xF4 ∧ 0x80 ≤ b2 ∧ b2 ≤ 0x8F) ∨
            (b ≠ 0xF0 ∧ b ≠ 0xF4 ∧ isCont b2) then
          match r2 with
          | [] => []
          | b3 :: r3 =>
            if isCont b3 then
              match r3 with
              | [] => []
              | b4 :: r4 =>
                if isCont b4 then
                  Char.ofNat ((b - 0xF0) * 262144 + (b2 - 0x80) * 4096 +
                      (b3 - 0x80) * 64 + (b4 - 0x80)) :: utf8DecodeIgnore r4
                else utf8DecodeIgnore (b4 :: r4)
            else utf8DecodeIgnore (b3 :: r3)
        else utf8DecodeIgnore (b2 :: r2)
    else utf8DecodeIgnore r
termination_by l => l.length
decreasing_by all_goals simp_arith

/-- `RamenScraper.fix_encoding` (src/scraper.py lines 26-60): the
replacement table is applied unconditionally; the latin-1/utf-8
round-trip is attempted only when the corruption fingerprint is
detected in the table-fixed text, and its result is kept only when it
passes the acceptance check. -/
def fix_encoding (t : List Char) : List Char :=
  if t = [] then t
  else if mojibakeDetect (applyFixes t) then
    if roundTripAccept (utf8DecodeIgnore (latin1EncodeIgnore (applyFixes t))) then
      utf8DecodeIgnore (latin1EncodeIgnore (applyFixes t))
    else applyFixes t
  else applyFixes t

theorem pyReplace_nil (old new : List Char) : pyReplace old new [] = [] := by
  rw [pyReplace]

theorem applyFixes_nil : applyFixes [] = [] := by
  unfold applyFixes
  simp [mojibakeFixes, pyReplace_nil]

/-- Claim C9 (amended): `fix_encoding` always returns either the
table-fixed text or the byte round-trip of the table-fixed text, and
the round-trip result is used only when it passes the acceptance check;
but the mojibake replacement table itself is applied unconditionally,
with no fingerprint test, so the result can differ from the original
even when no corruption fingerprint is present. -/
theorem c9_fix_encoding_amended (t : List Char) :
    fix_encoding t = applyFixes t ∨
      (fix_encoding t = utf8DecodeIgnore (latin1EncodeIgnore (applyFixes t)) ∧
        roundTripAccept (utf8DecodeIgnore (latin1EncodeIgnore (applyFixes t))) = true) := by
  unfold fix_encoding
  by_cases ht : t = []
  · rw [if_pos ht, ht, applyFixes_nil]
    exact Or.inl rfl
  · rw [if_neg ht]
    by_cases hd : mojibakeDetect (applyFixes t) = true
    · rw [if_pos hd]
      by_cases ha : roundTripAccept (utf8DecodeIgnore (latin1EncodeIgnore (applyFixes t))) = true
      · rw [if_pos ha]
        exact Or.inr ⟨rfl, ha⟩
      · rw [if_neg ha]
        exact Or.inl rfl
    · rw [if_neg hd]
      exact Or.inl rfl

/-- The input of the C9 counterexample: the two-character string
`"å“"`, the cp1252 mojibake rendering of `品`. -/
def c9Input : List Char := "å“".data

unseal pyReplace in
/-- Claim C9, counterexample: on `"å“"` no corruption fingerprint is
present (`mojibakeDetect` is false), yet `fix_encoding` still rewrites
the text to `品` through the unconditional replacement table — the
result is neither the original text nor a fingerprint-reducing repair
of a detected corruption. -/
theorem c9_counterexample :
    fix_encoding c9Input = "品".data ∧
      fix_encoding c9Input ≠ c9Input ∧
      mojibakeDetect c9Input = false := by
  decide

/-! Product-category assignment in `RamenScraper.parse_product_detail`
(src/scraper.py lines 801-911). -/

/-- The product id from the URL: regex `/products/([^/?]+)` searched
left to right (line 808), then lower-cased (line 810). -/
def extractProductId : List Char → Option (List Char)
  | [] => none
  | c :: r =>
    if "/products/".data.isPrefixOf (c :: r) then
      match ((c :: r).drop 10).takeWhile (fun d => ¬ (d = '/' ∨ d = '?')) with
      | [] => extractProductId r
      | run => some (strLower run)
    else extractProductId r

/-- The IPA-drink check (lines 813-816), over the lower-cased title. -/
def isIpaDrink (tl : List Char) : Bool :=
  pyIn "yuzu hazy ipa".data tl || pyIn "ipa 350ml".data tl ||
    (pyIn "ipa".data tl && (pyIn "370ml".data tl || pyIn "350ml".data tl))

/-- The soup check (lines 819-822). -/
def isSoupCheck (tl : List Char) : Bool :=
  pyIn "ramen soup".data tl || (pyIn "soup".data tl && pyIn "ramen".data tl)

/-- The drink check used in the tp-prefix and fallback branches
(lines 843-849 and 859-865, identical expressions in the source). -/
def isDrinkCheck (tl : List Char) : Bool :=
  pyIn "yuzu juice".data tl || pyIn "juice".data tl ||
    (pyIn "drink".data tl || pyIn "beer".data tl || pyIn "sake".data tl ||
     pyIn "whisky".data tl || pyIn "beverage".data tl ||
     pyIn "craft beer".data tl || pyIn "brewing".data tl)

/-- The four keyword fallback rules shared by lines 870-877 and
882-889; `none` means all four failed. -/
def titleBasedCategory (tl combined : List Char) : Option (List Char) :=
  if pyIn "tsukemen".data tl ∨
      (tl ≠ [] ∧ pyIn "tsukemen".data combined ∧ ¬ pyIn "ramen".data tl) then
    some "Tsukemen".data
  else if pyIn "ramen".data tl ∨ (tl ≠ [] ∧ pyIn "ramen".data combined) then
    some "Ramen".data
  else if pyIn "noodle".data combined ∧ ¬ pyIn "ramen".data combined ∧
      ¬ pyIn "tsukemen".data combined then
    some "Noodles".data
  else if pyIn "topping".data combined ∨ pyIn "side".data combined ∨
      pyIn "gohan".data combined then
    some "Side Dishes".data
  else none

/-- The category-element fallback (lines 891-911); `celem` models the
result of `soup.find(class_=re.compile('category|Category|collection'))`
as its stripped lower-cased text when an element is found. -/
def categoryElemCategory (celem : Option (List Char)) : List Char :=
  match celem with
  | none => "Ramen".data
  | some ct =>
    if pyIn "ramen".data ct then "Ramen".data
    else if pyIn "tsukemen".data ct then "Tsukemen".data
    else if pyIn "noodle".data ct then "Noodles".data
    else if pyIn "drink".data ct then "Drinks".data
    else if pyIn "soup".data ct then "Soup".data
    else if pyIn "topping".data ct then "Side Dishes".data
    else "Ramen".data

/-- The `menu_category` decision of `RamenScraper.parse_product_detail`
(src/scraper.py lines 801-911): IPA drinks first, then the URL
product-id prefix (ra/me/tu/ni/sr directly, tp sub-classified by
soup/drink keywords, unknown prefixes by keywords), else the keyword
and page-element fallbacks. -/
def parse_product_category (url title desc : List Char)
    (celem : Option (List Char)) : List Char :=
  let tl := strLower title
  let dl := strLower desc
  let combined := strLower (tl ++ ' ' :: dl)
  if isIpaDrink tl then "Drinks".data
  else
    match extractProductId url with
    | some pid =>
      if "ra".data.isPrefixOf pid then "Ramen".data
      else if "me".data.isPrefixOf pid then "Noodles".data
      else if "tu".data.isPrefixOf pid then "Tsukemen".data
      else if "ni".data.isPrefixOf pid ∨ "sr".data.isPrefixOf pid then
        "Side Dishes".data
      else if "tp".data.isPrefixOf pid then
        if isSoupCheck tl then "Soup".data
        else if isDrinkCheck tl then "Drinks".data
        else "Side Dishes".data
      else
        if isSoupCheck tl then "Soup".data
        else if isDrinkCheck tl then "Drinks".data
        else (titleBasedCategory tl combined).getD "Ramen".data
    | none =>
      match titleBasedCategory tl combined with
      | some cat => cat
      | none => categoryElemCategory celem

/-- The direct prefix lookup of lines 829-836 — the part of the
decision tree the claim is about. -/
def urlPrefixCategory (pid : List Char) : Option (List Char) :=
  if "ra".data.isPrefixOf pid then some "Ramen".data
  else if "me".data.isPrefixOf pid then some "Noodles".data
  else if "tu".data.isPrefixOf pid then some "Tsukemen".data
  else if "ni".data.isPrefixOf pid ∨ "sr".data.isPrefixOf pid then
    some "Side Dishes".data
  else none

/-- Claim C8 (amended): for a shop-product URL with a product id whose
prefix is ra, me, tu, ni or sr, and whose title is not an IPA drink,
the category is determined by the prefix lookup alone, regardless of
title and description keywords; the IPA-drink title check takes
precedence over the prefix, and a tp prefix is sub-classified by
soup/drink title keywords rather than by the prefix alone. -/
theorem c8_url_prefix_amended (url title desc : List Char)
    (celem : Option (List Char)) (pid cat : List Char)
    (hpid : extractProductId url = some pid)
    (hipa : isIpaDrink (strLower title) = false)
    (hcat : urlPrefixCategory pid = some cat) :
    parse_product_category url title desc celem = cat := by
  unfold parse_product_category
  simp only [hipa, Bool.false_eq_true, if_false, hpid]
  unfold urlPrefixCategory at hcat
  by_cases h1 : "ra".data.isPrefixOf pid = true
  · rw [if_pos h1] at hcat ⊢
    injection hcat
  · rw [if_neg h1] at hcat ⊢
    by_cases h2 : "me".data.isPrefixOf pid = true
    · rw [if_pos h2] at hcat ⊢
      injection hcat
    · rw [if_neg h2] at hcat ⊢
      by_cases h3 : "tu".data.isPrefixOf pid = true
      · rw [if_pos h3] at hcat ⊢
        injection hcat
      · rw [if_neg h3] at hcat ⊢
        by_cases h4 : "ni".data.isPrefixOf pid = true ∨ "sr".data.isPrefixOf pid = true
        · rw [if_pos h4] at hcat ⊢
          injection hcat
        · rw [if_neg h4] at hcat
          simp at hcat

/-- The URL of the C8 theorems: a shop product with an `ra` prefix. -/
def c8Url : List Char := "https://afuri.com/products/ra00050002006".data

/-- Claim C8, counterexample: the URL prefix `ra` maps to Ramen, but
for the title "Yuzu Hazy IPA 370ml" the IPA-drink title check overrides
the prefix and assigns Drinks, so the prefix lookup does not take
precedence over keyword inference. -/
theorem c8_counterexample :
    extractProductId c8Url = some "ra00050002006".data ∧
      parse_product_category c8Url "Yuzu Hazy IPA 370ml".data [] none =
        "Drinks".data ∧
      parse_product_category c8Url "Yuzu Hazy IPA 370ml".data [] none ≠
        "Ramen".data := by
  decide

/-- Claim C8, witness: the amended prefix theorem at the concrete URL,
with a non-IPA title full of keywords (tsukemen) that the prefix
nevertheless overrides. -/
theorem c8_witness :
    parse_product_category c8Url "Frozen Tsukemen Set".data
      "noodle soup".data none = "Ramen".data :=
  c8_url_prefix_amended c8Url "Frozen Tsukemen Set".data "noodle soup".data none
    "ra00050002006".data "Ramen".data (by decide) (by decide) (by decide)

/-! Named-entity sweep of `RamenScraper.parse_menu_page`
(src/scraper.py lines 263-417). -/

/-- The curated menu-item name list (src/scraper.py lines 265-274). -/
def menu_item_names : List (List Char) :=
  ["Yuzu Shio Ramen".data, "Yuzu Shoyu Ramen".data, "Shio Ramen".data,
   "Shoyu Ramen".data, "Yuzu Ratan Ramen".data, "Rainbow Vegan Ramen".data,
   "Summer Limited Cold Yuzu Shio Ramen".data,
   "Ama-tsuyu Tsukemen".data, "Yuzu-tsuyu Tsukemen".data,
   "Kara-tsuyu Tsukemen".data, "Yuzu-kara-tsuyu Tsukemen".data,
   "Gokuboso Men".data, "Temomi Men".data, "Konnyaku Men".data,
   "Aburi Koro Pork Chashu Gohan".data, "Pork Niku Gohan".data,
   "Hongarebushi Okaka Gohan".data, "Tare Gohan".data, "Gohan".data,
   "Pork Aburi Chashu".data, "Kaku-ni Chashu".data,
   "Nitamago".data, "Menma".data, "Nori 7 pieces".data, "Nori".data,
   "Mizuna".data, "Draft Beer".data, "Whisky Soda AFURI's style".data,
   "Japanese SAKE".data]

/-- Stable insertion into a list sorted by decreasing length (equal
lengths keep the earlier element first). -/
def insertByLen (x : List Char) : List (List Char) → List (List Char)
  | [] => [x]
  | y :: ys => if x.length ≤ y.length then y :: insertByLen x ys else x :: y :: ys

/-- Python `menu_item_names.sort(key=len, reverse=True)` (line 277): a
stable sort by decreasing length. -/
def sortByLenDesc (l : List (List Char)) : List (List Char) :=
  l.foldl (fun acc x => insertByLen x acc) []

/-- Word-character test of the regex `\b` (ASCII approximation of `\w`;
every name in the list is ASCII). -/
def isWordChar (c : Char) : Bool := c.isAlphanum || c = '_'

/-- The trailing character class `(?:\s|$|[。、，,\.\n])` of the
boundary pattern (line 304). -/
def followerOk : List Char → Bool
  | [] => true
  | c :: _ =>
    pyIsSpace c || c = '。' || c = '、' || c = '，' || c = ',' || c = '.' || c = '\n'

/-- The `\b` word-boundary test between the character before the match
position and the first character of the name. -/
def boundaryOk (prev : Option Char) (first : Option Char) : Bool :=
  match first with
  | none => false
  | some f =>
    let pw := match prev with
      | none => false
      | some p => isWordChar p
    isWordChar f != pw

/-- `re.search` of the boundary pattern `\b<name>(?:\s|$|[。、，,\.\n])`
(lines 302-305): try every position; `prev` is the character just
before the current position. -/
def searchBoundary (name : List Char) : Option Char → List Char → Bool
  | prev, [] =>
    boundaryOk prev name.head? && name.isPrefixOf ([] : List Char) && followerOk []
  | prev, c :: r =>
    (boundaryOk prev name.head? && name.isPrefixOf (c :: r) &&
      followerOk ((c :: r).drop name.length)) ||
      searchBoundary name (some c) r

/-- A record emitted by the named-entity sweep.  Only the fields that
influence which records are emitted are modelled; the content and
introduction extraction (lines 316-365 and 387-401) feeds no emission
decision and is omitted. -/
structure MenuRec where
  menu_item : List Char
  menu_category : List Char
deriving DecidableEq

/-- The known side-dish names of line 378. -/
def sideDishNames : List (List Char) :=
  ["Nori".data, "Menma".data, "Mizuna".data, "Nitamago".data, "Chashu".data,
   "Pork Aburi Chashu".data, "Kaku-ni Chashu".data]

/-- The category rules of the sweep (lines 367-382); `text` is the
element text (used only by the Chi-yu rule). -/
def sweepCategory (item_name text : List Char) : List Char :=
  if pyIn "Tsukemen".data item_name ∨ pyIn "tsukemen".data (strLower item_name) then
    "Tsukemen".data
  else if pyIn "Men".data item_name ∧ ¬ pyIn "Tsukemen".data item_name ∧
      ¬ pyIn "Ramen".data item_name then
    "Noodles".data
  else if pyIn "Gohan".data item_name then "Side Dishes".data
  else if pyIn "Beer".data item_name ∨ pyIn "Whisky".data item_name ∨
      pyIn "SAKE".data item_name then
    "Drinks".data
  else if item_name ∈ sideDishNames then "Side Dishes".data
  else if pyIn "Chi-yu".data text ∨ pyIn "鶏油".data text then "Chi-yu".data
  else "Ramen".data

/-- The element scan for one name (lines 297-417): the first element
with a boundary match and length above `len(name) + 10` that does not
also contain a longer known name containing this name yields a record
(the source then breaks out of the element loop). -/
def sweepElems (item_name : List Char) : List (List Char) → Option MenuRec
  | [] => none
  | text :: rest =>
    if searchBoundary item_name none text = true ∧
        item_name.length + 10 < text.length then
      if menu_item_names.any (fun other =>
          other ≠ item_name ∧ item_name.length < other.length ∧
          pyIn item_name other ∧ pyIn other text) then
        sweepElems item_name rest
      else some ⟨item_name, sweepCategory item_name text⟩
    else sweepElems item_name rest

/-- One iteration of the name loop of the sweep (lines 279-417):
skip names already collected, names absent from the page text, and
names for which a more specific record has already been collected;
otherwise scan the elements. -/
def sweepStep (elems : List (List Char)) (allText : List Char)
    (items : List MenuRec) (item_name : List Char) : List MenuRec :=
  if items.any (fun it => it.menu_item = item_name) then items
  else if ¬ pyIn item_name allText then items
  else if items.any (fun ex => ex.menu_item ≠ item_name ∧
      pyIn item_name ex.menu_item ∧ item_name.length < ex.menu_item.length) then
    items
  else
    match sweepElems item_name elems with
    | some r => items ++ [r]
    | none => items

/-- The named-entity sweep of `parse_menu_page` (lines 263-417):
iterate the longest-first sorted name list over the page, starting from
the records already collected by the list-item and paragraph phases. -/
def namedEntitySweep (elems : List (List Char)) (allText : List Char)
    (init : List MenuRec) : List MenuRec :=
  (sortByLenDesc menu_item_names).foldl (sweepStep elems allText) init

theorem sweepElems_item : ∀ {es : List (List Char)} {m : List Char} {r : MenuRec},
    sweepElems m es = some r → r.menu_item = m
  | [], m, r, h => by simp [sweepElems] at h
  | text :: rest, m, r, h => by
    simp only [sweepElems] at h
    by_cases h1 : searchBoundary m none text = true ∧ m.length + 10 < text.length
    · rw [if_pos h1] at h
      by_cases h2 : menu_item_names.any (fun other =>
          other ≠ m ∧ m.length < other.length ∧ pyIn m other ∧ pyIn other text) = true
      · rw [if_pos h2] at h
        exact sweepElems_item h
      · rw [if_neg h2] at h
        injection h with h3
        rw [← h3]
    · rw [if_neg h1] at h
      exact sweepElems_item h

theorem sweepStep_eq_or_append (elems : List (List Char)) (allText : List Char)
    (items : List MenuRec) (m : List Char) :
    sweepStep elems allText items m = items ∨
      ∃ cat, sweepStep elems allText items m = items ++ [⟨m, cat⟩] := by
  unfold sweepStep
  by_cases h1 : items.any (fun it => it.menu_item = m) = true
  · rw [if_pos h1]; exact Or.inl rfl
  · rw [if_neg h1]
    by_cases h2 : ¬ pyIn m allText = true
    · rw [if_pos h2]; exact Or.inl rfl
    · rw [if_neg h2]
      by_cases h3 : items.any (fun ex => ex.menu_item ≠ m ∧
          pyIn m ex.menu_item ∧ m.length < ex.menu_item.length) = true
      · rw [if_pos h3]; exact Or.inl rfl
      · rw [if_neg h3]
        cases hse : sweepElems m elems with
        | none => exact Or.inl rfl
        | some r =>
          right
          refine ⟨r.menu_category, ?_⟩
          have hit := sweepElems_item hse
          rw [← hit]

theorem sweepStep_suppress (elems : List (List Char)) (allText : List Char)
    {items : List MenuRec} {n : List Char}
    (hex : ∃ r ∈ items, pyIn n r.menu_item = true ∧ n.length < r.menu_item.length) :
    sweepStep elems allText items n = items := by
  unfold sweepStep
  by_cases h1 : items.any (fun it => it.menu_item = n) = true
  · rw [if_pos h1]
  · rw [if_neg h1]
    by_cases h2 : ¬ pyIn n allText = true
    · rw [if_pos h2]
    · rw [if_neg h2]
      have h3 : items.any (fun ex => ex.menu_item ≠ n ∧
          pyIn n ex.menu_item ∧ n.length < ex.menu_item.length) = true := by
        obtain ⟨r0, hr0, hpy, hlen⟩ := hex
        refine List.any_eq_true.mpr ⟨r0, hr0, ?_⟩
        have hne : r0.menu_item ≠ n := by
          intro he
          rw [he] at hlen
          exact Nat.lt_irrefl _ hlen
        simp [hne, hpy, hlen]
      rw [if_pos h3]

theorem sweep_foldl_suppressed (elems : List (List Char)) (allText : List Char) :
    ∀ (names : List (List Char)) (items : List MenuRec) (n : List Char),
      (∀ r ∈ items, r.menu_item ≠ n) →
      (∃ r ∈ items, pyIn n r.menu_item = true ∧ n.length < r.menu_item.length) →
      ∀ r ∈ names.foldl (sweepStep elems allText) items, r.menu_item ≠ n
  | [], items, n, hno, _, r, hr => hno r hr
  | m :: rest, items, n, hno, hex, r, hr => by
    simp only [List.foldl_cons] at hr
    by_cases hmn : m = n
    · rw [hmn, sweepStep_suppress elems allText hex] at hr
      exact sweep_foldl_suppressed elems allText rest items n hno hex r hr
    · rcases sweepStep_eq_or_append elems allText items m with he | ⟨cat, he⟩
      · rw [he] at hr
        exact sweep_foldl_suppressed elems allText rest items n hno hex r hr
      · rw [he] at hr
        refine sweep_foldl_suppressed elems allText rest (items ++ [⟨m, cat⟩]) n
          ?_ ?_ r hr
        · intro r2 hr2
          rcases List.mem_append.mp hr2 with h | h
          · exact hno r2 h
          · simp only [List.mem_singleton] at h
            rw [h]
            exact hmn
        · obtain ⟨r0, hr0, h1, h2⟩ := hex
          exact ⟨r0, List.mem_append_left _ hr0, h1, h2⟩

/-- The page element of the C5 amended-claim scenario: long enough for
the sweep to emit the specific name "Nori 7 pieces". -/
def c5Elem : List Char := "Nori 7 pieces with roasted seaweed sheets".data

/-- Claim C5 (amended): in the named-entity sweep, a shorter name is
suppressed whenever the records collected so far include one with a
strictly longer name containing it (the longest-first order guarantees
this whenever the longer name was emitted by the sweep itself); and on
a page whose single element contains "Nori 7 pieces" with enough
surrounding text, the sweep emits exactly one record, for
"Nori 7 pieces", and none for "Nori".  The claim fails in general
because presence of the longer name in the page text alone does not
guarantee its record is emitted (the element length gate can reject
it), and then the shorter name is not suppressed. -/
theorem c5_specificity_amended :
    (∀ (elems : List (List Char)) (allText : List Char) (init : List MenuRec)
        (n : List Char),
      (∀ r ∈ init, r.menu_item ≠ n) →
      (∃ r ∈ init, pyIn n r.menu_item = true ∧ n.length < r.menu_item.length) →
      (namedEntitySweep elems allText init).all
        (fun r => r.menu_item ≠ n) = true) ∧
    namedEntitySweep [c5Elem] c5Elem [] =
      [⟨"Nori 7 pieces".data, "Ramen".data⟩] := by
  constructor
  · intro elems allText init n hno hex
    refine List.all_eq_true.mpr ?_
    intro r hr
    have := sweep_foldl_suppressed elems allText
      (sortByLenDesc menu_item_names) init n hno hex r hr
    simpa using this
  · decide

/-- The two elements of the C5 counterexample: the first contains
"Nori 7 pieces" but is too short for the length gate; the second
contains "Nori" without the longer name. -/
def c5E1 : List Char := "Nori 7 pieces on sale".data

/-- Second element of the C5 counterexample. -/
def c5E2 : List Char := "Nori with some other texts".data

/-- Page text of the C5 counterexample. -/
def c5CAllText : List Char := c5E1 ++ '\n' :: c5E2

/-- Claim C5, counterexample: the page text contains both "Nori" and
"Nori 7 pieces", yet the sweep emits no record for "Nori 7 pieces" (no
element passes the length gate for it) and one record for "Nori" (from
the second element, which does not contain the longer name), refuting
both the concrete scenario and the general suppression statement. -/
theorem c5_counterexample :
    pyIn "Nori 7 pieces".data c5CAllText = true ∧
      pyIn "Nori".data c5CAllText = true ∧
      namedEntitySweep [c5E1, c5E2] c5CAllText [] =
        [⟨"Nori".data, "Side Dishes".data⟩] := by
  decide

/-- Claim C5, witness: the suppression half of the amended theorem at a
concrete state where a "Nori 7 pieces" record is already collected. -/
theorem c5_witness :
    (namedEntitySweep [c5E2] c5CAllText
        [⟨"Nori 7 pieces".data, "Ramen".data⟩]).all
      (fun r => r.menu_item ≠ "Nori".data) = true :=
  c5_specificity_amended.1 [c5E2] c5CAllText
    [⟨"Nori 7 pieces".data, "Ramen".data⟩] "Nori".data
    (by decide) (by decide)

end IR
